import Mathlib

/-!
# Verification of the thumbnail cache / generation-scheduling core of
# yhling/go-web-image-gallery (src/main.go)

This development gives a shallow embedding of the artifact cache and
generation-scheduling subsystem of the gallery server:

* the artifact key resolver `getThumbnailPath` (main.go lines 96-104),
  built on a faithful model of Go's `path/filepath` functions for
  Unix-style paths (`Clean`, `Dir`, `Base`, `Ext`, `Join`);
* the media-class tables `imageExtensions` / `movieExtensions`
  (main.go lines 45-70) and the class routing used by the coordinator
  and the generation routine;
* the generation routine `generateThumbnail` (main.go lines 477-523),
  with the external tools (vipsthumbnail / ffmpeg) and the filesystem
  treated as an oracle, per the spec's opaque Transcoder contract
  (a tool invocation either produces the artifact file or fails and
  produces nothing);
* the thumbnail endpoint tail `handleThumbnail` (main.go lines 309-328;
  the routing / URL decoding / traversal-check plumbing that precedes
  it is an external collaborator per the spec's scope);
* a labelled transition system for the concurrent coordinator
  `queueAndWaitForThumbnail` (lines 525-567), the two class queues, and
  the worker loops `imageThumbnailWorker` / `movieThumbnailWorker`
  (lines 569-609), with every atomic action of the Go code (the
  `sync.Map` `LoadOrStore` / `LoadAndDelete` / `Delete`, channel
  enqueue / dequeue / close, the select with timeout, and the
  generation attempt) as one transition.
-/

/-! ## Go `path/filepath` on Unix paths, at the character-list level -/

/-- Unix path separator test (`os.IsPathSeparator` on non-Windows). -/
def isSep (c : Char) : Bool := c = '/'

/-- Split a character list on `/`; mirrors `strings.Split(s, "/")`:
the result is never empty, and separators delimit (possibly empty)
components. -/
def splitSep : List Char → List (List Char)
  | [] => [[]]
  | c :: cs =>
    if isSep c then [] :: splitSep cs
    else
      match splitSep cs with
      | [] => [[c]]
      | h :: t => (c :: h) :: t

/-- One component of the output of `splitSep`: nonempty iff it has no
separator, which we record as a predicate for clean-path lemmas. -/
def validComp (p : List Char) : Prop :=
  p ≠ [] ∧ p ≠ ['.'] ∧ p ≠ ['.', '.'] ∧ '/' ∉ p

/-- The element-processing loop of Go's `filepath.Clean`: drop empty and
`.` components, let `..` cancel a preceding non-`..` component (or be
dropped at the root of a rooted path), keep everything else.  The
accumulator `out` holds the kept components in reverse. -/
def cleanParts (rooted : Bool) : List (List Char) → List (List Char) → List (List Char)
  | out, [] => out.reverse
  | out, p :: ps =>
    if p = [] ∨ p = ['.'] then cleanParts rooted out ps
    else if p = ['.', '.'] then
      match out with
      | [] => if rooted then cleanParts rooted [] ps else cleanParts rooted [['.', '.']] ps
      | q :: out' =>
        if q = ['.', '.'] then cleanParts rooted (p :: q :: out') ps
        else cleanParts rooted out' ps
    else cleanParts rooted (p :: out) ps

/-- Join components back with `/` (no leading or trailing separator). -/
def joinSep : List (List Char) → List Char
  | [] => []
  | [p] => p
  | p :: ps => p ++ '/' :: joinSep ps

/-- Go's `filepath.Clean` for Unix paths. -/
def cleanL (l : List Char) : List Char :=
  let rooted : Bool := match l with | c :: _ => c = '/' | [] => false
  let parts := cleanParts rooted [] (splitSep l)
  if rooted then
    match parts with
    | [] => ['/']
    | _ => '/' :: joinSep parts
  else
    match parts with
    | [] => ['.']
    | _ => joinSep parts

/-- Go's `filepath.Dir`: everything up to and including the final
separator, cleaned; `.` when there is no separator. -/
def dirL (l : List Char) : List Char :=
  cleanL ((l.reverse.dropWhile (fun c => ¬ isSep c)).reverse)

/-- Go's `filepath.Base`: strip trailing separators, then keep the part
after the last separator; `.` for the empty path, `/` for all-separator
paths. -/
def baseL (l : List Char) : List Char :=
  if l = [] then ['.']
  else
    let r := l.reverse.dropWhile isSep
    if r = [] then ['/']
    else (r.takeWhile (fun c => ¬ isSep c)).reverse

/-- Go's `filepath.Ext`: the suffix starting at the last dot in the
final path element; empty when the final element has no dot. -/
def extL (l : List Char) : List Char :=
  let r := l.reverse.takeWhile (fun c => ¬ isSep c)
  match r.findIdx? (fun c => c = '.') with
  | none => []
  | some j => (r.take (j + 1)).reverse

/-- Go's two-argument `filepath.Join`: concatenate nonempty arguments
with a separator and clean the result; empty when both are empty. -/
def joinL (a b : List Char) : List Char :=
  if a = [] then (if b = [] then [] else cleanL b)
  else cleanL (a ++ '/' :: b)

/-! String wrappers (Go works on strings; in Lean 4.14 a `String` wraps
its `List Char`). -/

def filepathClean (s : String) : String := ⟨cleanL s.data⟩

def filepathDir (s : String) : String := ⟨dirL s.data⟩

def filepathBase (s : String) : String := ⟨baseL s.data⟩

def filepathExt (s : String) : String := ⟨extL s.data⟩

def filepathJoin (a b : String) : String := ⟨joinL a.data b.data⟩

/-- `getThumbnailPath` (main.go lines 96-104): the artifact key
resolver.  For an image path it combines the directory, a hidden
`.small` subdirectory, and the base name with the original extension
kept and `.jpg` appended. -/
def getThumbnailPath (imagePath : String) : String :=
  let dir := filepathDir imagePath
  let baseName := filepathBase imagePath
  let thumbnailDir := filepathJoin dir ".small"
  let thumbnailPath := filepathJoin thumbnailDir (baseName ++ ".jpg")
  thumbnailPath

/-! ## Media classes (main.go lines 45-70) -/

/-- ASCII lowercasing of one character; agrees with Go's
`strings.ToLower` on ASCII input (all extension table keys are ASCII). -/
def asciiLowerChar (c : Char) : Char :=
  if 'A' ≤ c ∧ c ≤ 'Z' then Char.ofNat (c.toNat + 32) else c

/-- ASCII lowercasing of a string (`strings.ToLower` on ASCII input). -/
def asciiLower (s : String) : String := ⟨s.data.map asciiLowerChar⟩

/-- The `imageExtensions` table (main.go lines 45-59): membership in the
map with value `true`. -/
def imageExtensions (s : String) : Bool :=
  [".jpg", ".jpeg", ".png", ".heic", ".HEIC", ".arw", ".ARW",
   ".raw", ".RAW", ".heif", ".HEIF", ".dng", ".DNG"].contains s

/-- The `movieExtensions` table (main.go lines 61-70). -/
def movieExtensions (s : String) : Bool :=
  [".mov", ".MOV", ".mp4", ".MP4", ".avi", ".AVI", ".mkv", ".MKV"].contains s

/-- The two media classes of the spec (`image` / `motion`). -/
inductive MediaClass where
  | image : MediaClass
  | movie : MediaClass
deriving DecidableEq, Repr

/-- The class routing performed by `queueAndWaitForThumbnail`
(main.go lines 532-541): lowercase the extension, test the movie table
first, then the image table; `none` is the unsupported-type case. -/
def routeClass (imagePath : String) : Option MediaClass :=
  let ext := asciiLower (filepathExt imagePath)
  if movieExtensions ext then some MediaClass.movie
  else if imageExtensions ext then some MediaClass.image
  else none

/-! ## The generation routine (main.go lines 477-523) -/

/-- Outcome of one external tool invocation (ffmpeg / vipsthumbnail):
per the spec's Transcoder contract it either produces the encoded
artifact or fails producing nothing. -/
inductive ToolOutcome where
  | success : ToolOutcome
  | failure : ToolOutcome
deriving DecidableEq, Repr

/-- Oracle for the effectful steps of one `generateThumbnail` call:
whether `os.MkdirAll` succeeds, whether `os.Open` on the source
succeeds, and the tool outcome. -/
structure GenOracle where
  mkdirOk : Bool
  openOk : Bool
  tool : ToolOutcome
deriving DecidableEq, Repr

/-- The error cases of `generateThumbnail`. -/
inductive GenError where
  | mkdirFailed : GenError
  | openFailed : GenError
  | toolFailed : GenError
  | unsupportedType : GenError
deriving DecidableEq, Repr

/-- `generateThumbnail` (main.go lines 477-523) over an explicit cache
state (the set of files on disk under the `.small` directories) and a
`GenOracle`.  Returns the error result, the new cache state, and
whether the Transcoder (ffmpeg / vipsthumbnail) was invoked.

Steps of the Go code, in order: resolve the thumbnail path; return nil
if the thumbnail already exists; `os.MkdirAll` the thumbnail directory;
lowercase the extension; movie extensions go to ffmpeg, image
extensions open the source and go to vipsthumbnail, anything else is
the unsupported-type error.  A failing tool leaves no file behind (the
Transcoder contract: JPEG bytes or failure). -/
def generateThumbnail (o : GenOracle) (imagePath : String) (cache : List String) :
    Except GenError Unit × List String × Bool :=
  let thumbnailPath := getThumbnailPath imagePath
  if cache.contains thumbnailPath then (Except.ok (), cache, false)
  else if o.mkdirOk = false then (Except.error GenError.mkdirFailed, cache, false)
  else
    let ext := asciiLower (filepathExt imagePath)
    if movieExtensions ext then
      match o.tool with
      | ToolOutcome.success => (Except.ok (), thumbnailPath :: cache, true)
      | ToolOutcome.failure => (Except.error GenError.toolFailed, cache, true)
    else if imageExtensions ext then
      if o.openOk = false then (Except.error GenError.openFailed, cache, false)
      else
        match o.tool with
        | ToolOutcome.success => (Except.ok (), thumbnailPath :: cache, true)
        | ToolOutcome.failure => (Except.error GenError.toolFailed, cache, true)
    else (Except.error GenError.unsupportedType, cache, false)

example : getThumbnailPath "/photos/beach.jpg" = "/photos/.small/beach.jpg.jpg" := by decide

example : routeClass "/photos/clip.MOV" = some MediaClass.movie := by decide

example : routeClass "/photos/notes.txt" = none := by decide

/-! ## The thumbnail endpoint (main.go lines 309-328)

The plumbing before line 309 (URL decoding, `filepath.Clean`, the
root-relative traversal check) is an external collaborator per the
spec's scope; the handler tail receives the validated absolute source
path.  The call into `queueAndWaitForThumbnail` is abstracted as a
function argument, since the real coordinator is the concurrent system
modelled below. -/

/-- The coordinator's error taxonomy, as returned by
`queueAndWaitForThumbnail` (main.go lines 525-567). -/
inductive CoordError where
  | unsupportedType : CoordError
  | notFoundAfterGen : CoordError
  | timeout : CoordError
  | fallback : GenError → CoordError
deriving DecidableEq, Repr

/-- The observable outcomes of `handleThumbnail`'s tail. -/
inductive ThumbResponse where
  | notFound : ThumbResponse
  | genFailed : CoordError → ThumbResponse
  | serveFile : String → ThumbResponse
deriving DecidableEq, Repr

/-- `handleThumbnail`, lines 309-328: 404 when the source file is
missing; resolve the thumbnail path; when the thumbnail file does not
exist, call the coordinator and return 500 on error; serve the
thumbnail file.  `files` is the set of files on disk; the second
component records whether the coordinator was invoked. -/
def handleThumbnail (files : List String) (fullPath : String)
    (coord : String → String → Except CoordError Unit) : ThumbResponse × Bool :=
  if files.contains fullPath = false then (ThumbResponse.notFound, false)
  else
    let thumbnailPath := getThumbnailPath fullPath
    if files.contains thumbnailPath = false then
      match coord fullPath thumbnailPath with
      | Except.error e => (ThumbResponse.genFailed e, true)
      | Except.ok () => (ThumbResponse.serveFile thumbnailPath, true)
    else (ThumbResponse.serveFile thumbnailPath, false)

/-! ## The concurrent coordinator, queues and workers as a labelled
transition system

Shared state (main.go): the `pendingThumbs` `sync.Map` (association
list from thumbnail path to a channel, channels named by `Nat` ids),
the set of already-closed channels, the two bounded class queues, the
cache (files on disk), and a fresh-channel counter.  The ghost counters
`starts` / `dels` / `gens` count starter load-or-inserts, registry
deletions, and completed generation attempts; they let the dedup
theorem speak about "exactly once". -/

/-- The queue capacity `queueSize` (main.go line 140). -/
def queueSize : Nat := 250

/-- The wait timeout, seconds (main.go line 564: `30 * time.Second`). -/
def waitTimeoutSeconds : Nat := 30

/-- Decidable equality for `Except` results (not provided by core). -/
def exceptDecEq {ε α : Type} [DecidableEq ε] [DecidableEq α] : DecidableEq (Except ε α)
  | Except.ok a, Except.ok b =>
      if h : a = b then Decidable.isTrue (by rw [h])
      else Decidable.isFalse (by intro hh; cases hh; exact h rfl)
  | Except.ok _, Except.error _ => Decidable.isFalse (by intro h; cases h)
  | Except.error _, Except.ok _ => Decidable.isFalse (by intro h; cases h)
  | Except.error e, Except.error f =>
      if h : e = f then Decidable.isTrue (by rw [h])
      else Decidable.isFalse (by intro hh; cases hh; exact h rfl)

instance {ε α : Type} [DecidableEq ε] [DecidableEq α] : DecidableEq (Except ε α) :=
  exceptDecEq

/-- Program counter of one caller inside `queueAndWaitForThumbnail`
(main.go lines 525-567).  `start` is before the `LoadOrStore`;
`enqueuing` is a starter before the enqueue `select`; `waiting` is the
final `select` on the channel with timeout; the `fb` states are the
queue-full synchronous fallback: generate inline, `close(done)`,
`Delete` the registry entry, return the generation result. -/
inductive CallerState where
  | start : String → CallerState
  | enqueuing : String → Nat → CallerState
  | waiting : String → Nat → CallerState
  | fbGen : String → Nat → CallerState
  | fbClose : String → Nat → Except GenError Unit → CallerState
  | fbDelete : String → Nat → Except GenError Unit → CallerState
  | done : Except CoordError Unit → CallerState
deriving DecidableEq, Repr

/-- Program counter of one worker (main.go lines 569-609): blocked on
the queue; about to run `generateThumbnail` for a dequeued path; the
attempt returned, about to `LoadAndDelete`; holding the result of the
`LoadAndDelete`, about to `close` it if present. -/
inductive WorkerState where
  | idle : WorkerState
  | gen : String → WorkerState
  | afterGen : String → WorkerState
  | closing : Option Nat → WorkerState
deriving DecidableEq, Repr

/-- A configuration of the whole subsystem. -/
structure Config where
  pending : List (String × Nat)
  closedCh : List Nat
  iq : List String
  mq : List String
  cache : List String
  nextCh : Nat
  callers : List CallerState
  workers : List (MediaClass × WorkerState)
  tlog : List String
  starts : Nat
  dels : Nat
  gens : Nat
deriving DecidableEq, Repr

/-- `sync.Map` lookup. -/
def lookupP (l : List (String × Nat)) (k : String) : Option Nat :=
  match l.find? (fun e => e.1 = k) with
  | none => none
  | some e => some e.2

/-- `sync.Map` `Delete` / the removal half of `LoadAndDelete`. -/
def eraseKey (l : List (String × Nat)) (k : String) : List (String × Nat) :=
  l.filter (fun e => ¬ e.1 = k)

/-- The class queue selected by `queueAndWaitForThumbnail`. -/
def queueOf (c : Config) : MediaClass → List String
  | MediaClass.image => c.iq
  | MediaClass.movie => c.mq

/-- Replace the selected class queue. -/
def withQueue (c : Config) : MediaClass → List String → Config
  | MediaClass.image, q => { c with iq := q }
  | MediaClass.movie, q => { c with mq := q }

/-- Step label: whether the step is a caller's `LoadOrStore` (used to
state the concurrency window of the dedup scenario), and the oracle of
a generation attempt when the step is one. -/
structure StepLabel where
  isStart : Bool
  oracle : Option GenOracle
deriving DecidableEq, Repr

/-- One atomic action of the subsystem.  Each constructor mirrors one
atomic step of the Go code, named by its source line:

* `startJoin` / `startNewSupported` / `startNewUnsupported`: the
  `LoadOrStore` at line 527 followed by the purely local class routing
  of lines 530-541 — note the unsupported-type return at line 540
  leaves the freshly inserted registry entry behind;
* `enqueueOk` / `enqueueFull`: the `select` at lines 544-553;
* `fbGenStep` / `fbCloseStep` / `fbDeleteStep`: lines 549-552;
* `wake` / `timeoutStep`: the `select` at lines 557-566;
* `wDequeue` / `wGenStep` / `wLoadDel` / `wCloseSome` / `wCloseNone`:
  the worker loops, lines 569-609. -/
inductive Step : StepLabel → Config → Config → Prop where
  | startJoin (c : Config) (l1 l2 : List CallerState) (ip : String) (ch : Nat)
      (hc : c.callers = l1 ++ CallerState.start ip :: l2)
      (hp : lookupP c.pending (getThumbnailPath ip) = some ch) :
      Step ⟨true, none⟩ c { c with callers := l1 ++ CallerState.waiting ip ch :: l2 }
  | startNewSupported (c : Config) (l1 l2 : List CallerState) (ip : String) (cls : MediaClass)
      (hc : c.callers = l1 ++ CallerState.start ip :: l2)
      (hp : lookupP c.pending (getThumbnailPath ip) = none)
      (hr : routeClass ip = some cls) :
      Step ⟨true, none⟩ c { c with
        pending := (getThumbnailPath ip, c.nextCh) :: c.pending,
        nextCh := c.nextCh + 1,
        starts := c.starts + 1,
        callers := l1 ++ CallerState.enqueuing ip c.nextCh :: l2 }
  | startNewUnsupported (c : Config) (l1 l2 : List CallerState) (ip : String)
      (hc : c.callers = l1 ++ CallerState.start ip :: l2)
      (hp : lookupP c.pending (getThumbnailPath ip) = none)
      (hr : routeClass ip = none) :
      Step ⟨true, none⟩ c { c with
        pending := (getThumbnailPath ip, c.nextCh) :: c.pending,
        nextCh := c.nextCh + 1,
        starts := c.starts + 1,
        callers := l1 ++ CallerState.done (Except.error CoordError.unsupportedType) :: l2 }
  | enqueueOk (c : Config) (l1 l2 : List CallerState) (ip : String) (ch : Nat) (cls : MediaClass)
      (hc : c.callers = l1 ++ CallerState.enqueuing ip ch :: l2)
      (hr : routeClass ip = some cls)
      (hq : (queueOf c cls).length < queueSize) :
      Step ⟨false, none⟩
        c (withQueue { c with callers := l1 ++ CallerState.waiting ip ch :: l2 }
            cls (queueOf c cls ++ [ip]))
  | enqueueFull (c : Config) (l1 l2 : List CallerState) (ip : String) (ch : Nat) (cls : MediaClass)
      (hc : c.callers = l1 ++ CallerState.enqueuing ip ch :: l2)
      (hr : routeClass ip = some cls)
      (hq : ¬ (queueOf c cls).length < queueSize) :
      Step ⟨false, none⟩ c { c with callers := l1 ++ CallerState.fbGen ip ch :: l2 }
  | fbGenStep (c : Config) (l1 l2 : List CallerState) (ip : String) (ch : Nat) (o : GenOracle)
      (hc : c.callers = l1 ++ CallerState.fbGen ip ch :: l2) :
      Step ⟨false, some o⟩ c { c with
        cache := (generateThumbnail o ip c.cache).2.1,
        tlog := if (generateThumbnail o ip c.cache).2.2 then
            getThumbnailPath ip :: c.tlog else c.tlog,
        gens := c.gens + 1,
        callers := l1 ++ CallerState.fbClose ip ch (generateThumbnail o ip c.cache).1 :: l2 }
  | fbCloseStep (c : Config) (l1 l2 : List CallerState) (ip : String) (ch : Nat)
      (r : Except GenError Unit)
      (hc : c.callers = l1 ++ CallerState.fbClose ip ch r :: l2) :
      Step ⟨false, none⟩ c { c with
        closedCh := ch :: c.closedCh,
        callers := l1 ++ CallerState.fbDelete ip ch r :: l2 }
  | fbDeleteStep (c : Config) (l1 l2 : List CallerState) (ip : String) (ch : Nat)
      (r : Except GenError Unit)
      (hc : c.callers = l1 ++ CallerState.fbDelete ip ch r :: l2) :
      Step ⟨false, none⟩ c { c with
        pending := eraseKey c.pending (getThumbnailPath ip),
        dels := if (lookupP c.pending (getThumbnailPath ip)).isSome then
            c.dels + 1 else c.dels,
        callers := l1 ++ CallerState.done (r.mapError CoordError.fallback) :: l2 }
  | wake (c : Config) (l1 l2 : List CallerState) (ip : String) (ch : Nat)
      (hc : c.callers = l1 ++ CallerState.waiting ip ch :: l2)
      (hcl : ch ∈ c.closedCh) :
      Step ⟨false, none⟩ c { c with
        callers := l1 ++ CallerState.done
          (if c.cache.contains (getThumbnailPath ip) then Except.ok ()
           else Except.error CoordError.notFoundAfterGen) :: l2 }
  | timeoutStep (c : Config) (l1 l2 : List CallerState) (ip : String) (ch : Nat)
      (hc : c.callers = l1 ++ CallerState.waiting ip ch :: l2) :
      Step ⟨false, none⟩ c { c with
        callers := l1 ++ CallerState.done (Except.error CoordError.timeout) :: l2 }
  | wDequeue (c : Config) (w1 w2 : List (MediaClass × WorkerState)) (cls : MediaClass)
      (ip : String) (rest : List String)
      (hw : c.workers = w1 ++ (cls, WorkerState.idle) :: w2)
      (hq : queueOf c cls = ip :: rest) :
      Step ⟨false, none⟩
        c (withQueue { c with workers := w1 ++ (cls, WorkerState.gen ip) :: w2 } cls rest)
  | wGenStep (c : Config) (w1 w2 : List (MediaClass × WorkerState)) (cls : MediaClass)
      (ip : String) (o : GenOracle)
      (hw : c.workers = w1 ++ (cls, WorkerState.gen ip) :: w2) :
      Step ⟨false, some o⟩ c { c with
        cache := (generateThumbnail o ip c.cache).2.1,
        tlog := if (generateThumbnail o ip c.cache).2.2 then
            getThumbnailPath ip :: c.tlog else c.tlog,
        gens := c.gens + 1,
        workers := w1 ++ (cls, WorkerState.afterGen ip) :: w2 }
  | wLoadDel (c : Config) (w1 w2 : List (MediaClass × WorkerState)) (cls : MediaClass)
      (ip : String)
      (hw : c.workers = w1 ++ (cls, WorkerState.afterGen ip) :: w2) :
      Step ⟨false, none⟩ c { c with
        pending := eraseKey c.pending (getThumbnailPath ip),
        dels := if (lookupP c.pending (getThumbnailPath ip)).isSome then
            c.dels + 1 else c.dels,
        workers := w1 ++ (cls, WorkerState.closing
            (lookupP c.pending (getThumbnailPath ip))) :: w2 }
  | wCloseSome (c : Config) (w1 w2 : List (MediaClass × WorkerState)) (cls : MediaClass)
      (ch : Nat)
      (hw : c.workers = w1 ++ (cls, WorkerState.closing (some ch)) :: w2) :
      Step ⟨false, none⟩ c { c with
        closedCh := ch :: c.closedCh,
        workers := w1 ++ (cls, WorkerState.idle) :: w2 }
  | wCloseNone (c : Config) (w1 w2 : List (MediaClass × WorkerState)) (cls : MediaClass)
      (hw : c.workers = w1 ++ (cls, WorkerState.closing none) :: w2) :
      Step ⟨false, none⟩ c { c with
        workers := w1 ++ (cls, WorkerState.idle) :: w2 }

/-- Reachability by any interleaving. -/
inductive Reach : Config → Config → Prop where
  | refl (c : Config) : Reach c c
  | tail (a b c : Config) (l : StepLabel) : Reach a b → Step l b c → Reach a c

/-- Reachability restricted to the dedup scenario's window: every
caller `LoadOrStore` happens before any registry deletion (the spec's
"N concurrent requests ... before any completes"), and filesystem
preparation (mkdir / open) succeeds, so a cache-miss generation attempt
actually reaches the Transcoder. -/
inductive ReachW : Config → Config → Prop where
  | refl (c : Config) : ReachW c c
  | tail (a b c : Config) (l : StepLabel) : ReachW a b → Step l b c →
      (l.isStart = true → b.dels = 0) →
      (∀ o : GenOracle, l.oracle = some o → o.mkdirOk = true ∧ o.openOk = true) →
      ReachW a c


/-! ## Registry (sync.Map) lemmas -/

theorem lookupP_cons (e : String × Nat) (t : List (String × Nat)) (k : String) :
    lookupP (e :: t) k = if e.1 = k then some e.2 else lookupP t k := by
  by_cases h : e.1 = k
  · simp [lookupP, List.find?, h]
  · simp [lookupP, List.find?, h]

theorem eraseKey_cons (e : String × Nat) (t : List (String × Nat)) (k : String) :
    eraseKey (e :: t) k = if e.1 = k then eraseKey t k else e :: eraseKey t k := by
  by_cases h : e.1 = k
  · simp [eraseKey, List.filter, h]
  · simp [eraseKey, List.filter, h]

theorem lookupP_eraseKey_self (l : List (String × Nat)) (k : String) :
    lookupP (eraseKey l k) k = none := by
  induction l with
  | nil => rfl
  | cons e t ih =>
    rw [eraseKey_cons]
    by_cases h : e.1 = k
    · rw [if_pos h]; exact ih
    · rw [if_neg h, lookupP_cons, if_neg h]; exact ih

theorem lookupP_eraseKey_ne (l : List (String × Nat)) (k k' : String) (hne : k' ≠ k) :
    lookupP (eraseKey l k) k' = lookupP l k' := by
  induction l with
  | nil => rfl
  | cons e t ih =>
    rw [eraseKey_cons, lookupP_cons]
    by_cases h : e.1 = k
    · have h2 : ¬ e.1 = k' := by rw [h]; exact fun hh => hne hh.symm
      rw [if_pos h, if_neg h2]; exact ih
    · rw [if_neg h, lookupP_cons]
      by_cases h2 : e.1 = k'
      · rw [if_pos h2, if_pos h2]
      · rw [if_neg h2, if_neg h2]; exact ih

theorem lookupP_none_iff (l : List (String × Nat)) (k : String) :
    lookupP l k = none ↔ k ∉ l.map Prod.fst := by
  induction l with
  | nil => simp [lookupP]
  | cons e t ih =>
    rw [lookupP_cons]
    by_cases h : e.1 = k
    · simp [h]
    · rw [if_neg h]
      simp only [List.map_cons, List.mem_cons]
      constructor
      · intro hl hmem
        rcases hmem with hmem | hmem
        · exact h hmem.symm
        · exact (ih.mp hl) hmem
      · intro hmem
        exact ih.mpr (fun hm => hmem (Or.inr hm))

theorem nodup_eraseKey (l : List (String × Nat)) (k : String)
    (h : (l.map Prod.fst).Nodup) : ((eraseKey l k).map Prod.fst).Nodup :=
  ((List.filter_sublist l).map Prod.fst).nodup h

theorem nodup_insert_of_lookup_none (l : List (String × Nat)) (k : String) (ch : Nat)
    (hl : lookupP l k = none) (h : (l.map Prod.fst).Nodup) :
    (((k, ch) :: l).map Prod.fst).Nodup := by
  refine List.nodup_cons.mpr ⟨?_, h⟩
  exact (lookupP_none_iff l k).mp hl

/-! ## Ownership counting

An "owner" for an artifact key is a still-live generation duty: a queue
entry, a worker between dequeue and registry removal, or a fallback
caller between the enqueue select and the registry removal.  `preGen`
counts owners that have not yet completed the generation attempt,
`postGen` those past it. -/

def countKey (k : String) (l : List String) : Nat :=
  l.countP (fun ip => decide (getThumbnailPath ip = k))

def callerPreOwner (k : String) : CallerState → Bool
  | CallerState.enqueuing ip _ => decide (getThumbnailPath ip = k)
  | CallerState.fbGen ip _ => decide (getThumbnailPath ip = k)
  | _ => false

def callerPostOwner (k : String) : CallerState → Bool
  | CallerState.fbClose ip _ _ => decide (getThumbnailPath ip = k)
  | CallerState.fbDelete ip _ _ => decide (getThumbnailPath ip = k)
  | _ => false

def workerPreOwner (k : String) : MediaClass × WorkerState → Bool
  | (_, WorkerState.gen ip) => decide (getThumbnailPath ip = k)
  | _ => false

def workerPostOwner (k : String) : MediaClass × WorkerState → Bool
  | (_, WorkerState.afterGen ip) => decide (getThumbnailPath ip = k)
  | _ => false

def preGen (c : Config) (k : String) : Nat :=
  countKey k c.iq + countKey k c.mq + c.workers.countP (workerPreOwner k)
    + c.callers.countP (callerPreOwner k)

def postGen (c : Config) (k : String) : Nat :=
  c.workers.countP (workerPostOwner k) + c.callers.countP (callerPostOwner k)

def owners (c : Config) (k : String) : Nat := preGen c k + postGen c k

/-- The claim's "queued or executing generation tasks" for a key: queue
entries, workers running the generation attempt, fallback callers
running it inline. -/
def genTasks (c : Config) (k : String) : Nat :=
  countKey k c.iq + countKey k c.mq + c.workers.countP (workerPreOwner k)
    + c.callers.countP (fun cs => match cs with
        | CallerState.fbGen ip _ => decide (getThumbnailPath ip = k)
        | _ => false)

theorem genTasks_le_owners (c : Config) (k : String) : genTasks c k ≤ owners c k := by
  have h : c.callers.countP (fun cs => match cs with
      | CallerState.fbGen ip _ => decide (getThumbnailPath ip = k)
      | _ => false) ≤ c.callers.countP (callerPreOwner k) := by
    apply List.countP_mono_left
    intro cs _ hcs
    cases cs <;> simp_all [callerPreOwner]
  have h2 : genTasks c k ≤ preGen c k := by
    unfold genTasks preGen
    omega
  have h3 : preGen c k ≤ owners c k := Nat.le_add_right _ _
  omega

/-! ## The structural registry invariant (claim C1, first half) -/

structure InvA (c : Config) : Prop where
  nodup : (c.pending.map Prod.fst).Nodup
  ownLe : ∀ k, owners c k ≤ 1
  ownEntry : ∀ k, 0 < owners c k → (lookupP c.pending k).isSome = true

theorem owners_zero_of_lookup_none {c : Config} {k : String} (hb : InvA c)
    (h : lookupP c.pending k = none) : owners c k = 0 := by
  by_contra hne
  have h2 := hb.ownEntry k (Nat.pos_of_ne_zero hne)
  rw [h] at h2
  simp at h2

theorem invA_of_owners_eq {c c' : Config} (hb : InvA c) (hp : c'.pending = c.pending)
    (he : ∀ k, owners c' k = owners c k) : InvA c' := by
  refine ⟨?_, ?_, ?_⟩
  · rw [hp]; exact hb.nodup
  · intro k; rw [he k]; exact hb.ownLe k
  · intro k hk; rw [hp]; exact hb.ownEntry k (by rw [← he k]; exact hk)

theorem invA_of_owners_insert {c c' : Config} (hb : InvA c) (key : String) (ch : Nat)
    (hl : lookupP c.pending key = none)
    (hp : c'.pending = (key, ch) :: c.pending)
    (he : ∀ k, owners c' k = owners c k + (if key = k then 1 else 0)) : InvA c' := by
  have h0 : owners c key = 0 := owners_zero_of_lookup_none hb hl
  refine ⟨?_, ?_, ?_⟩
  · rw [hp]; exact nodup_insert_of_lookup_none _ _ _ hl hb.nodup
  · intro k
    have h1 := he k
    by_cases hk : key = k
    · subst hk; simp at h1; omega
    · have h2 := hb.ownLe k; simp [hk] at h1; omega
  · intro k hk0
    rw [hp, lookupP_cons]
    by_cases hk : key = k
    · simp [hk]
    · simp only [if_neg hk]
      apply hb.ownEntry
      have h1 := he k; simp [hk] at h1; omega

theorem invA_of_owners_insert_eq {c c' : Config} (hb : InvA c) (key : String) (ch : Nat)
    (hl : lookupP c.pending key = none)
    (hp : c'.pending = (key, ch) :: c.pending)
    (he : ∀ k, owners c' k = owners c k) : InvA c' := by
  refine ⟨?_, ?_, ?_⟩
  · rw [hp]; exact nodup_insert_of_lookup_none _ _ _ hl hb.nodup
  · intro k; rw [he k]; exact hb.ownLe k
  · intro k hk0
    rw [hp, lookupP_cons]
    by_cases hk : key = k
    · simp [hk]
    · simp only [if_neg hk]
      exact hb.ownEntry k (by rw [← he k]; exact hk0)

theorem invA_of_owners_erase {c c' : Config} (hb : InvA c) (key : String)
    (hp : c'.pending = eraseKey c.pending key)
    (he : ∀ k, owners c' k + (if key = k then 1 else 0) = owners c k) : InvA c' := by
  refine ⟨?_, ?_, ?_⟩
  · rw [hp]; exact nodup_eraseKey _ _ hb.nodup
  · intro k
    have h1 := he k
    have h2 := hb.ownLe k
    by_cases hk : key = k
    · simp [hk] at h1; omega
    · simp [hk] at h1; omega
  · intro k hk0
    by_cases hk : key = k
    · exfalso
      have h1 := he k
      have h2 := hb.ownLe k
      simp [hk] at h1
      omega
    · rw [hp, lookupP_eraseKey_ne _ _ _ (fun hh => hk hh.symm)]
      apply hb.ownEntry
      have h1 := he k
      simp [hk] at h1
      omega

/-- Every atomic step preserves the registry invariant. -/
theorem invA_step {lab : StepLabel} {c c' : Config} (h : Step lab c c') (hb : InvA c) :
    InvA c' := by
  cases h with
  | startJoin _ l1 l2 ip ch hc hp =>
    refine invA_of_owners_eq hb rfl (fun k => ?_)
    simp only [owners, preGen, postGen]
    rw [hc]
    simp [List.countP_append, List.countP_cons, callerPreOwner, callerPostOwner]
  | startNewSupported _ l1 l2 ip cls hc hp hr =>
    refine invA_of_owners_insert hb (getThumbnailPath ip) c.nextCh hp rfl (fun k => ?_)
    simp only [owners, preGen, postGen]
    rw [hc]
    simp [List.countP_append, List.countP_cons, callerPreOwner, callerPostOwner]
    by_cases hk : getThumbnailPath ip = k <;> simp [hk] <;> omega
  | startNewUnsupported _ l1 l2 ip hc hp hr =>
    refine invA_of_owners_insert_eq hb (getThumbnailPath ip) c.nextCh hp rfl (fun k => ?_)
    simp only [owners, preGen, postGen]
    rw [hc]
    simp [List.countP_append, List.countP_cons, callerPreOwner, callerPostOwner]
  | enqueueOk _ l1 l2 ip ch cls hc hr hq =>
    refine invA_of_owners_eq hb ?_ (fun k => ?_)
    · cases cls <;> rfl
    · cases cls <;>
        (simp only [owners, preGen, postGen, withQueue, queueOf, countKey]
         rw [hc]
         simp [List.countP_append, List.countP_cons, callerPreOwner, callerPostOwner]
         by_cases hk : getThumbnailPath ip = k <;> simp [hk] <;> omega)
  | enqueueFull _ l1 l2 ip ch cls hc hr hq =>
    refine invA_of_owners_eq hb rfl (fun k => ?_)
    simp only [owners, preGen, postGen]
    rw [hc]
    simp [List.countP_append, List.countP_cons, callerPreOwner, callerPostOwner]
  | fbGenStep _ l1 l2 ip ch o hc =>
    refine invA_of_owners_eq hb rfl (fun k => ?_)
    simp only [owners, preGen, postGen]
    rw [hc]
    simp [List.countP_append, List.countP_cons, callerPreOwner, callerPostOwner]
    by_cases hk : getThumbnailPath ip = k <;> simp [hk] <;> omega
  | fbCloseStep _ l1 l2 ip ch r hc =>
    refine invA_of_owners_eq hb rfl (fun k => ?_)
    simp only [owners, preGen, postGen]
    rw [hc]
    simp [List.countP_append, List.countP_cons, callerPreOwner, callerPostOwner]
  | fbDeleteStep _ l1 l2 ip ch r hc =>
    refine invA_of_owners_erase hb (getThumbnailPath ip) rfl (fun k => ?_)
    simp only [owners, preGen, postGen]
    rw [hc]
    simp [List.countP_append, List.countP_cons, callerPreOwner, callerPostOwner]
    by_cases hk : getThumbnailPath ip = k <;> simp [hk] <;> omega
  | wake _ l1 l2 ip ch hc hcl =>
    refine invA_of_owners_eq hb rfl (fun k => ?_)
    simp only [owners, preGen, postGen]
    rw [hc]
    simp [List.countP_append, List.countP_cons, callerPreOwner, callerPostOwner]
  | timeoutStep _ l1 l2 ip ch hc =>
    refine invA_of_owners_eq hb rfl (fun k => ?_)
    simp only [owners, preGen, postGen]
    rw [hc]
    simp [List.countP_append, List.countP_cons, callerPreOwner, callerPostOwner]
  | wDequeue _ w1 w2 cls ip rest hw hq =>
    refine invA_of_owners_eq hb ?_ (fun k => ?_)
    · cases cls <;> rfl
    · cases cls <;>
        (simp only [queueOf] at hq
         simp only [owners, preGen, postGen, withQueue, queueOf, countKey]
         rw [hw, hq]
         simp [List.countP_append, List.countP_cons, workerPreOwner, workerPostOwner]
         by_cases hk : getThumbnailPath ip = k <;> simp [hk] <;> omega)
  | wGenStep _ w1 w2 cls ip o hw =>
    refine invA_of_owners_eq hb rfl (fun k => ?_)
    simp only [owners, preGen, postGen]
    rw [hw]
    simp [List.countP_append, List.countP_cons, workerPreOwner, workerPostOwner]
    by_cases hk : getThumbnailPath ip = k <;> simp [hk] <;> omega
  | wLoadDel _ w1 w2 cls ip hw =>
    refine invA_of_owners_erase hb (getThumbnailPath ip) rfl (fun k => ?_)
    simp only [owners, preGen, postGen]
    rw [hw]
    simp [List.countP_append, List.countP_cons, workerPreOwner, workerPostOwner]
    by_cases hk : getThumbnailPath ip = k <;> simp [hk] <;> omega
  | wCloseSome _ w1 w2 cls ch hw =>
    refine invA_of_owners_eq hb rfl (fun k => ?_)
    simp only [owners, preGen, postGen]
    rw [hw]
    simp [List.countP_append, List.countP_cons, workerPreOwner, workerPostOwner]
  | wCloseNone _ w1 w2 cls hw =>
    refine invA_of_owners_eq hb rfl (fun k => ?_)
    simp only [owners, preGen, postGen]
    rw [hw]
    simp [List.countP_append, List.countP_cons, workerPreOwner, workerPostOwner]

/-! ## Initial configurations and the reachable-state invariant -/

/-- A well-formed initial configuration: empty registry and queues, all
workers blocked on their queues, all callers at the entry of
`queueAndWaitForThumbnail`. -/
def InitConfig (c : Config) : Prop :=
  c.pending = [] ∧ c.iq = [] ∧ c.mq = [] ∧
  (∀ w ∈ c.workers, w.2 = WorkerState.idle) ∧
  (∀ cs ∈ c.callers, ∃ ip, cs = CallerState.start ip)

theorem invA_init {c : Config} (h : InitConfig c) : InvA c := by
  obtain ⟨hp, hiq, hmq, hw, hcs⟩ := h
  have hown : ∀ k, owners c k = 0 := by
    intro k
    simp only [owners, preGen, postGen, countKey, hiq, hmq]
    have h1 : c.workers.countP (workerPreOwner k) = 0 := by
      rw [List.countP_eq_zero]
      intro w hww
      have := hw w hww
      cases w with
      | mk cls ws => simp at this; rw [this]; simp [workerPreOwner]
    have h2 : c.workers.countP (workerPostOwner k) = 0 := by
      rw [List.countP_eq_zero]
      intro w hww
      have := hw w hww
      cases w with
      | mk cls ws => simp at this; rw [this]; simp [workerPostOwner]
    have h3 : c.callers.countP (callerPreOwner k) = 0 := by
      rw [List.countP_eq_zero]
      intro cs hcc
      obtain ⟨ip, hip⟩ := hcs cs hcc
      rw [hip]; simp [callerPreOwner]
    have h4 : c.callers.countP (callerPostOwner k) = 0 := by
      rw [List.countP_eq_zero]
      intro cs hcc
      obtain ⟨ip, hip⟩ := hcs cs hcc
      rw [hip]; simp [callerPostOwner]
    simp [h1, h2, h3, h4]
  refine ⟨?_, ?_, ?_⟩
  · rw [hp]; exact List.nodup_nil
  · intro k; rw [hown k]; omega
  · intro k hk; rw [hown k] at hk; omega

theorem reach_invA {c c' : Config} (hi : InitConfig c) (hr : Reach c c') : InvA c' := by
  induction hr with
  | refl => exact invA_init hi
  | tail b d l hr hstep ih => exact invA_step hstep ih

/-- Restricted traces are traces. -/
theorem reachW_reach {c c' : Config} (h : ReachW c c') : Reach c c' := by
  induction h with
  | refl => exact Reach.refl _
  | tail b d l hr hstep hs ho ih => exact Reach.tail _ b d l ih hstep

/-! ## The single-key scenario invariant (claim C1, second half) -/

/-- The source path recorded in a caller state, when there is one. -/
def callerIp : CallerState → Option String
  | CallerState.start ip => some ip
  | CallerState.enqueuing ip _ => some ip
  | CallerState.waiting ip _ => some ip
  | CallerState.fbGen ip _ => some ip
  | CallerState.fbClose ip _ _ => some ip
  | CallerState.fbDelete ip _ _ => some ip
  | CallerState.done _ => none

/-- Invariant of the dedup scenario: all work in the system concerns the
single source path `ip0`, and the ghost counters tie the registry entry
for its key to the owner count, the generation attempts, and the
Transcoder log. -/
structure InvB (ip0 : String) (c : Config) : Prop where
  invA : InvA c
  qi : ∀ p ∈ c.iq, p = ip0
  qm : ∀ p ∈ c.mq, p = ip0
  wk : ∀ w ∈ c.workers, ∀ p : String,
      (w.2 = WorkerState.gen p ∨ w.2 = WorkerState.afterGen p) → p = ip0
  cl : ∀ cs ∈ c.callers, ∀ p : String, callerIp cs = some p → p = ip0
  entrySome : (lookupP c.pending (getThumbnailPath ip0)).isSome = true →
      c.starts = c.dels + 1
  entryNone : lookupP c.pending (getThumbnailPath ip0) = none → c.starts = c.dels
  startsLe : c.starts ≤ 1
  ownersEq : owners c (getThumbnailPath ip0) + c.dels = c.starts
  gensEq : c.gens = postGen c (getThumbnailPath ip0) + c.dels
  tlogEq : c.tlog.countP (fun x => decide (x = getThumbnailPath ip0)) = c.gens
  cacheMiss : c.gens = 0 → c.cache.contains (getThumbnailPath ip0) = false
  locked : c.starts = 0 → ∀ cs ∈ c.callers, cs = CallerState.start ip0

theorem mem_middle {α : Type} (l1 l2 : List α) (x : α) : x ∈ l1 ++ x :: l2 :=
  List.mem_append_right _ (List.mem_cons_self _ _)

theorem mem_of_parts {α : Type} {L l1 l2 : List α} {x : α} (hL : L = l1 ++ x :: l2)
    {y : α} (h : y ∈ l1 ∨ y ∈ l2) : y ∈ L := by
  rw [hL]
  rcases h with h | h
  · exact List.mem_append_left _ h
  · exact List.mem_append_right _ (List.mem_cons_of_mem _ h)

/-- Updating the distinguished element of a decomposed list preserves a
pointwise property, given the property for the new element. -/
theorem forall_update {α : Type} {P : α → Prop} {L l1 l2 : List α} {x : α}
    (hL : L = l1 ++ x :: l2) (hall : ∀ y ∈ L, P y) {x' : α} (hx : P x') :
    ∀ y ∈ l1 ++ x' :: l2, P y := by
  intro y hy
  rcases List.mem_append.mp hy with h | h
  · exact hall y (mem_of_parts hL (Or.inl h))
  · rcases List.mem_cons.mp h with rfl | h
    · exact hx
    · exact hall y (mem_of_parts hL (Or.inr h))

/-- A cache-miss generation attempt on a supported class with working
filesystem preparation always reaches the Transcoder. -/
theorem generateThumbnail_transcodes (o : GenOracle) (ip : String) (cache : List String)
    (hmiss : cache.contains (getThumbnailPath ip) = false)
    (hmk : o.mkdirOk = true) (hopen : o.openOk = true)
    (hsup : (routeClass ip).isSome = true) :
    (generateThumbnail o ip cache).2.2 = true := by
  unfold generateThumbnail
  simp only [hmiss, hmk, Bool.false_eq_true, if_false, Bool.true_eq_false]
  by_cases hm : movieExtensions (asciiLower (filepathExt ip)) = true
  · simp only [hm, if_true]
    cases o.tool <;> rfl
  · by_cases hi : imageExtensions (asciiLower (filepathExt ip)) = true
    · simp only [hm, hi, if_false, if_true, hopen, Bool.true_eq_false]
      cases o.tool <;> rfl
    · exfalso
      unfold routeClass at hsup
      simp [hm, hi] at hsup

/-- A caller occupying a non-`start` state forces at least one starter
load-or-insert to have happened. -/
theorem starts_pos_of_nonstart {ip0 : String} {c : Config} (hb : InvB ip0 c)
    {l1 l2 : List CallerState} {x : CallerState} (hc : c.callers = l1 ++ x :: l2)
    (hx : x ≠ CallerState.start ip0) : 0 < c.starts := by
  rcases Nat.eq_zero_or_pos c.starts with h0 | h
  · exact absurd (hb.locked h0 x (by rw [hc]; exact mem_middle _ _ _)) hx
  · exact h

/-- Every atomic step inside the scenario window preserves the
single-key scenario invariant. -/
theorem invB_step {ip0 : String} {lab : StepLabel} {c c' : Config}
    (hsup : (routeClass ip0).isSome = true)
    (h : Step lab c c') (hb : InvB ip0 c)
    (hstart : lab.isStart = true → c.dels = 0)
    (horacle : ∀ o : GenOracle, lab.oracle = some o → o.mkdirOk = true ∧ o.openOk = true) :
    InvB ip0 c' := by
  have hA : InvA c' := invA_step h hb.invA
  cases h with
  | startJoin _ l1 l2 ip ch hc hp =>
    have hip : ip = ip0 :=
      hb.cl (CallerState.start ip) (by rw [hc]; exact mem_middle _ _ _) ip rfl
    subst hip
    have hES : c.starts = c.dels + 1 := hb.entrySome (by rw [hp]; rfl)
    refine ⟨hA, hb.qi, hb.qm, hb.wk, ?_, hb.entrySome, hb.entryNone, hb.startsLe,
      ?_, ?_, hb.tlogEq, hb.cacheMiss, ?_⟩
    · exact forall_update hc hb.cl
        (by intro p hp2; simp [callerIp] at hp2; exact hp2.symm)
    · have hOE := hb.ownersEq
      simp only [owners, preGen, postGen, countKey] at hOE ⊢
      rw [hc] at hOE
      simp [List.countP_append, List.countP_cons, callerPreOwner, callerPostOwner] at hOE ⊢
      omega
    · have hGE := hb.gensEq
      simp only [postGen, countKey] at hGE ⊢
      rw [hc] at hGE
      simp [List.countP_append, List.countP_cons, callerPostOwner] at hGE ⊢
      omega
    · intro h0
      dsimp only at h0
      exfalso
      omega
  | startNewSupported _ l1 l2 ip cls hc hp hr =>
    have hip : ip = ip0 :=
      hb.cl (CallerState.start ip) (by rw [hc]; exact mem_middle _ _ _) ip rfl
    subst hip
    have hdels0 : c.dels = 0 := hstart rfl
    have hs0 : c.starts = c.dels := hb.entryNone hp
    refine ⟨hA, hb.qi, hb.qm, hb.wk, ?_, ?_, ?_, ?_, ?_, ?_, hb.tlogEq, hb.cacheMiss, ?_⟩
    · exact forall_update hc hb.cl
        (by intro p hp2; simp [callerIp] at hp2; exact hp2.symm)
    · intro _
      dsimp only
      omega
    · intro h0
      rw [lookupP_cons] at h0
      simp at h0
    · dsimp only
      omega
    · have hOE := hb.ownersEq
      simp only [owners, preGen, postGen, countKey] at hOE ⊢
      rw [hc] at hOE
      simp [List.countP_append, List.countP_cons, callerPreOwner, callerPostOwner] at hOE ⊢
      omega
    · have hGE := hb.gensEq
      simp only [postGen, countKey] at hGE ⊢
      rw [hc] at hGE
      simp [List.countP_append, List.countP_cons, callerPostOwner] at hGE ⊢
      omega
    · intro h0
      exact absurd h0 (Nat.succ_ne_zero _)
  | startNewUnsupported _ l1 l2 ip hc hp hr =>
    have hip : ip = ip0 :=
      hb.cl (CallerState.start ip) (by rw [hc]; exact mem_middle _ _ _) ip rfl
    subst hip
    rw [hr] at hsup
    simp at hsup
  | enqueueOk _ l1 l2 ip ch cls hc hr hq =>
    have hip : ip = ip0 :=
      hb.cl (CallerState.enqueuing ip ch) (by rw [hc]; exact mem_middle _ _ _) ip rfl
    subst hip
    have hpos : 0 < c.starts := starts_pos_of_nonstart hb hc (by intro hx; cases hx)
    cases cls with
    | image =>
      refine ⟨hA, ?_, hb.qm, hb.wk, ?_, hb.entrySome, hb.entryNone, hb.startsLe,
        ?_, ?_, hb.tlogEq, hb.cacheMiss, ?_⟩
      · intro p hpm
        rcases List.mem_append.mp hpm with h2 | h2
        · exact hb.qi p h2
        · rw [List.mem_singleton] at h2; exact h2
      · exact forall_update hc hb.cl
          (by intro p hp2; simp [callerIp] at hp2; exact hp2.symm)
      · have hOE := hb.ownersEq
        simp only [owners, preGen, postGen, countKey, withQueue, queueOf] at hOE ⊢
        rw [hc] at hOE
        simp [List.countP_append, List.countP_cons, callerPreOwner, callerPostOwner] at hOE ⊢
        omega
      · have hGE := hb.gensEq
        simp only [postGen, countKey, withQueue, queueOf] at hGE ⊢
        rw [hc] at hGE
        simp [List.countP_append, List.countP_cons, callerPostOwner] at hGE ⊢
        omega
      · intro h0
        simp only [withQueue] at h0
        exfalso
        omega
    | movie =>
      refine ⟨hA, hb.qi, ?_, hb.wk, ?_, hb.entrySome, hb.entryNone, hb.startsLe,
        ?_, ?_, hb.tlogEq, hb.cacheMiss, ?_⟩
      · intro p hpm
        rcases List.mem_append.mp hpm with h2 | h2
        · exact hb.qm p h2
        · rw [List.mem_singleton] at h2; exact h2
      · exact forall_update hc hb.cl
          (by intro p hp2; simp [callerIp] at hp2; exact hp2.symm)
      · have hOE := hb.ownersEq
        simp only [owners, preGen, postGen, countKey, withQueue, queueOf] at hOE ⊢
        rw [hc] at hOE
        simp [List.countP_append, List.countP_cons, callerPreOwner, callerPostOwner] at hOE ⊢
        omega
      · have hGE := hb.gensEq
        simp only [postGen, countKey, withQueue, queueOf] at hGE ⊢
        rw [hc] at hGE
        simp [List.countP_append, List.countP_cons, callerPostOwner] at hGE ⊢
        omega
      · intro h0
        simp only [withQueue] at h0
        exfalso
        omega
  | enqueueFull _ l1 l2 ip ch cls hc hr hq =>
    have hip : ip = ip0 :=
      hb.cl (CallerState.enqueuing ip ch) (by rw [hc]; exact mem_middle _ _ _) ip rfl
    subst hip
    have hpos : 0 < c.starts := starts_pos_of_nonstart hb hc (by intro hx; cases hx)
    refine ⟨hA, hb.qi, hb.qm, hb.wk, ?_, hb.entrySome, hb.entryNone, hb.startsLe,
      ?_, ?_, hb.tlogEq, hb.cacheMiss, ?_⟩
    · exact forall_update hc hb.cl
        (by intro p hp2; simp [callerIp] at hp2; exact hp2.symm)
    · have hOE := hb.ownersEq
      simp only [owners, preGen, postGen, countKey] at hOE ⊢
      rw [hc] at hOE
      simp [List.countP_append, List.countP_cons, callerPreOwner, callerPostOwner] at hOE ⊢
      omega
    · have hGE := hb.gensEq
      simp only [postGen, countKey] at hGE ⊢
      rw [hc] at hGE
      simp [List.countP_append, List.countP_cons, callerPostOwner] at hGE ⊢
      omega
    · intro h0
      dsimp only at h0
      exfalso
      omega
  | fbGenStep _ l1 l2 ip ch o hc =>
    have hip : ip = ip0 :=
      hb.cl (CallerState.fbGen ip ch) (by rw [hc]; exact mem_middle _ _ _) ip rfl
    subst hip
    obtain ⟨hmk, hopen⟩ := horacle o rfl
    have hpre : 0 < preGen c (getThumbnailPath ip) := by
      simp only [preGen, countKey]
      rw [hc]
      simp [List.countP_append, List.countP_cons, callerPreOwner]
    have hOE := hb.ownersEq
    have hGE := hb.gensEq
    have hSL := hb.startsLe
    simp only [owners] at hOE
    have hkey : postGen c (getThumbnailPath ip) = 0 ∧ c.dels = 0 ∧ c.starts = 1 := by
      omega
    obtain ⟨hpg0, hdels0, hs1⟩ := hkey
    have hg0 : c.gens = 0 := by omega
    have hmiss := hb.cacheMiss hg0
    have htrans := generateThumbnail_transcodes o ip c.cache hmiss hmk hopen hsup
    refine ⟨hA, hb.qi, hb.qm, hb.wk, ?_, hb.entrySome, hb.entryNone, hb.startsLe,
      ?_, ?_, ?_, ?_, ?_⟩
    · exact forall_update hc hb.cl
        (by intro p hp2; simp [callerIp] at hp2; exact hp2.symm)
    · simp only [owners, preGen, postGen, countKey] at hOE ⊢
      rw [hc] at hOE
      simp [List.countP_append, List.countP_cons, callerPreOwner, callerPostOwner] at hOE ⊢
      omega
    · simp only [postGen, countKey] at hGE ⊢
      rw [hc] at hGE
      simp [List.countP_append, List.countP_cons, callerPostOwner] at hGE ⊢
      omega
    · have hTL := hb.tlogEq
      dsimp only
      simp [htrans, List.countP_cons]
      omega
    · intro h0
      exact absurd h0 (Nat.succ_ne_zero _)
    · intro h0
      dsimp only at h0
      exfalso
      omega
  | fbCloseStep _ l1 l2 ip ch r hc =>
    have hip : ip = ip0 :=
      hb.cl (CallerState.fbClose ip ch r) (by rw [hc]; exact mem_middle _ _ _) ip rfl
    subst hip
    have hpos : 0 < c.starts := starts_pos_of_nonstart hb hc (by intro hx; cases hx)
    refine ⟨hA, hb.qi, hb.qm, hb.wk, ?_, hb.entrySome, hb.entryNone, hb.startsLe,
      ?_, ?_, hb.tlogEq, hb.cacheMiss, ?_⟩
    · exact forall_update hc hb.cl
        (by intro p hp2; simp [callerIp] at hp2; exact hp2.symm)
    · have hOE := hb.ownersEq
      simp only [owners, preGen, postGen, countKey] at hOE ⊢
      rw [hc] at hOE
      simp [List.countP_append, List.countP_cons, callerPreOwner, callerPostOwner] at hOE ⊢
      omega
    · have hGE := hb.gensEq
      simp only [postGen, countKey] at hGE ⊢
      rw [hc] at hGE
      simp [List.countP_append, List.countP_cons, callerPostOwner] at hGE ⊢
      omega
    · intro h0
      dsimp only at h0
      exfalso
      omega
  | fbDeleteStep _ l1 l2 ip ch r hc =>
    have hip : ip = ip0 :=
      hb.cl (CallerState.fbDelete ip ch r) (by rw [hc]; exact mem_middle _ _ _) ip rfl
    subst hip
    have hposOwn : 0 < owners c (getThumbnailPath ip) := by
      simp only [owners, preGen, postGen, countKey]
      rw [hc]
      simp [List.countP_append, List.countP_cons, callerPreOwner, callerPostOwner]
    have hlook : (lookupP c.pending (getThumbnailPath ip)).isSome = true :=
      hb.invA.ownEntry _ hposOwn
    have hES : c.starts = c.dels + 1 := hb.entrySome hlook
    refine ⟨hA, hb.qi, hb.qm, hb.wk, ?_, ?_, ?_, hb.startsLe, ?_, ?_,
      hb.tlogEq, hb.cacheMiss, ?_⟩
    · exact forall_update hc hb.cl (by intro p hp2; simp [callerIp] at hp2)
    · intro h2
      rw [lookupP_eraseKey_self] at h2
      simp at h2
    · intro _
      dsimp only
      simp [hlook]
      omega
    · have hOE := hb.ownersEq
      dsimp only
      simp only [hlook, if_pos]
      simp only [owners, preGen, postGen, countKey] at hOE ⊢
      rw [hc] at hOE
      simp [List.countP_append, List.countP_cons, callerPreOwner, callerPostOwner] at hOE ⊢
      omega
    · have hGE := hb.gensEq
      dsimp only
      simp only [hlook, if_pos]
      simp only [postGen, countKey] at hGE ⊢
      rw [hc] at hGE
      simp [List.countP_append, List.countP_cons, callerPostOwner] at hGE ⊢
      omega
    · intro h0
      dsimp only at h0
      exfalso
      omega
  | wake _ l1 l2 ip ch hc hcl2 =>
    have hip : ip = ip0 :=
      hb.cl (CallerState.waiting ip ch) (by rw [hc]; exact mem_middle _ _ _) ip rfl
    subst hip
    have hpos : 0 < c.starts := starts_pos_of_nonstart hb hc (by intro hx; cases hx)
    refine ⟨hA, hb.qi, hb.qm, hb.wk, ?_, hb.entrySome, hb.entryNone, hb.startsLe,
      ?_, ?_, hb.tlogEq, hb.cacheMiss, ?_⟩
    · exact forall_update hc hb.cl (by intro p hp2; simp [callerIp] at hp2)
    · have hOE := hb.ownersEq
      simp only [owners, preGen, postGen, countKey] at hOE ⊢
      rw [hc] at hOE
      simp [List.countP_append, List.countP_cons, callerPreOwner, callerPostOwner] at hOE ⊢
      omega
    · have hGE := hb.gensEq
      simp only [postGen, countKey] at hGE ⊢
      rw [hc] at hGE
      simp [List.countP_append, List.countP_cons, callerPostOwner] at hGE ⊢
      omega
    · intro h0
      dsimp only at h0
      exfalso
      omega
  | timeoutStep _ l1 l2 ip ch hc =>
    have hip : ip = ip0 :=
      hb.cl (CallerState.waiting ip ch) (by rw [hc]; exact mem_middle _ _ _) ip rfl
    subst hip
    have hpos : 0 < c.starts := starts_pos_of_nonstart hb hc (by intro hx; cases hx)
    refine ⟨hA, hb.qi, hb.qm, hb.wk, ?_, hb.entrySome, hb.entryNone, hb.startsLe,
      ?_, ?_, hb.tlogEq, hb.cacheMiss, ?_⟩
    · exact forall_update hc hb.cl (by intro p hp2; simp [callerIp] at hp2)
    · have hOE := hb.ownersEq
      simp only [owners, preGen, postGen, countKey] at hOE ⊢
      rw [hc] at hOE
      simp [List.countP_append, List.countP_cons, callerPreOwner, callerPostOwner] at hOE ⊢
      omega
    · have hGE := hb.gensEq
      simp only [postGen, countKey] at hGE ⊢
      rw [hc] at hGE
      simp [List.countP_append, List.countP_cons, callerPostOwner] at hGE ⊢
      omega
    · intro h0
      dsimp only at h0
      exfalso
      omega
  | wDequeue _ w1 w2 cls ip rest hw hq =>
    cases cls with
    | image =>
      simp only [queueOf] at hq
      have hip : ip = ip0 := hb.qi ip (by rw [hq]; exact List.mem_cons_self _ _)
      subst hip
      refine ⟨hA, ?_, hb.qm, ?_, hb.cl, hb.entrySome, hb.entryNone, hb.startsLe,
        ?_, ?_, hb.tlogEq, hb.cacheMiss, hb.locked⟩
      · intro p hp2
        exact hb.qi p (by rw [hq]; exact List.mem_cons_of_mem _ hp2)
      · refine forall_update hw hb.wk ?_
        intro p hp2
        rcases hp2 with h2 | h2
        · exact (WorkerState.gen.inj h2).symm
        · exact WorkerState.noConfusion h2
      · have hOE := hb.ownersEq
        simp only [owners, preGen, postGen, countKey, withQueue, queueOf] at hOE ⊢
        rw [hw, hq] at hOE
        simp [List.countP_append, List.countP_cons, workerPreOwner, workerPostOwner] at hOE ⊢
        omega
      · have hGE := hb.gensEq
        simp only [postGen, countKey, withQueue, queueOf] at hGE ⊢
        rw [hw] at hGE
        simp [List.countP_append, List.countP_cons, workerPostOwner] at hGE ⊢
        omega
    | movie =>
      simp only [queueOf] at hq
      have hip : ip = ip0 := hb.qm ip (by rw [hq]; exact List.mem_cons_self _ _)
      subst hip
      refine ⟨hA, hb.qi, ?_, ?_, hb.cl, hb.entrySome, hb.entryNone, hb.startsLe,
        ?_, ?_, hb.tlogEq, hb.cacheMiss, hb.locked⟩
      · intro p hp2
        exact hb.qm p (by rw [hq]; exact List.mem_cons_of_mem _ hp2)
      · refine forall_update hw hb.wk ?_
        intro p hp2
        rcases hp2 with h2 | h2
        · exact (WorkerState.gen.inj h2).symm
        · exact WorkerState.noConfusion h2
      · have hOE := hb.ownersEq
        simp only [owners, preGen, postGen, countKey, withQueue, queueOf] at hOE ⊢
        rw [hw, hq] at hOE
        simp [List.countP_append, List.countP_cons, workerPreOwner, workerPostOwner] at hOE ⊢
        omega
      · have hGE := hb.gensEq
        simp only [postGen, countKey, withQueue, queueOf] at hGE ⊢
        rw [hw] at hGE
        simp [List.countP_append, List.countP_cons, workerPostOwner] at hGE ⊢
        omega
  | wGenStep _ w1 w2 cls ip o hw =>
    have hip : ip = ip0 :=
      hb.wk (cls, WorkerState.gen ip) (by rw [hw]; exact mem_middle _ _ _) ip (Or.inl rfl)
    subst hip
    obtain ⟨hmk, hopen⟩ := horacle o rfl
    have hpre : 0 < preGen c (getThumbnailPath ip) := by
      simp only [preGen, countKey]
      rw [hw]
      simp [List.countP_append, List.countP_cons, workerPreOwner]
    have hOE := hb.ownersEq
    have hGE := hb.gensEq
    have hSL := hb.startsLe
    simp only [owners] at hOE
    have hkey : postGen c (getThumbnailPath ip) = 0 ∧ c.dels = 0 ∧ c.starts = 1 := by
      omega
    obtain ⟨hpg0, hdels0, hs1⟩ := hkey
    have hg0 : c.gens = 0 := by omega
    have hmiss := hb.cacheMiss hg0
    have htrans := generateThumbnail_transcodes o ip c.cache hmiss hmk hopen hsup
    refine ⟨hA, hb.qi, hb.qm, ?_, hb.cl, hb.entrySome, hb.entryNone, hb.startsLe,
      ?_, ?_, ?_, ?_, ?_⟩
    · refine forall_update hw hb.wk ?_
      intro p hp2
      rcases hp2 with h2 | h2
      · exact WorkerState.noConfusion h2
      · exact (WorkerState.afterGen.inj h2).symm
    · simp only [owners, preGen, postGen, countKey] at hOE ⊢
      rw [hw] at hOE
      simp [List.countP_append, List.countP_cons, workerPreOwner, workerPostOwner] at hOE ⊢
      omega
    · simp only [postGen, countKey] at hGE ⊢
      rw [hw] at hGE
      simp [List.countP_append, List.countP_cons, workerPostOwner] at hGE ⊢
      omega
    · have hTL := hb.tlogEq
      dsimp only
      simp [htrans, List.countP_cons]
      omega
    · intro h0
      exact absurd h0 (Nat.succ_ne_zero _)
    · intro h0
      dsimp only at h0
      exfalso
      omega
  | wLoadDel _ w1 w2 cls ip hw =>
    have hip : ip = ip0 :=
      hb.wk (cls, WorkerState.afterGen ip) (by rw [hw]; exact mem_middle _ _ _) ip (Or.inr rfl)
    subst hip
    have hposOwn : 0 < owners c (getThumbnailPath ip) := by
      simp only [owners, preGen, postGen, countKey]
      rw [hw]
      simp [List.countP_append, List.countP_cons, workerPreOwner, workerPostOwner]
    have hlook : (lookupP c.pending (getThumbnailPath ip)).isSome = true :=
      hb.invA.ownEntry _ hposOwn
    have hES : c.starts = c.dels + 1 := hb.entrySome hlook
    refine ⟨hA, hb.qi, hb.qm, ?_, hb.cl, ?_, ?_, hb.startsLe, ?_, ?_,
      hb.tlogEq, hb.cacheMiss, hb.locked⟩
    · refine forall_update hw hb.wk ?_
      intro p hp2
      rcases hp2 with h2 | h2
      · exact WorkerState.noConfusion h2
      · exact WorkerState.noConfusion h2
    · intro h2
      rw [lookupP_eraseKey_self] at h2
      simp at h2
    · intro _
      dsimp only
      simp [hlook]
      omega
    · have hOE := hb.ownersEq
      dsimp only
      simp only [hlook, if_pos]
      simp only [owners, preGen, postGen, countKey] at hOE ⊢
      rw [hw] at hOE
      simp [List.countP_append, List.countP_cons, workerPreOwner, workerPostOwner] at hOE ⊢
      omega
    · have hGE := hb.gensEq
      dsimp only
      simp only [hlook, if_pos]
      simp only [postGen, countKey] at hGE ⊢
      rw [hw] at hGE
      simp [List.countP_append, List.countP_cons, workerPostOwner] at hGE ⊢
      omega
  | wCloseSome _ w1 w2 cls ch hw =>
    refine ⟨hA, hb.qi, hb.qm, ?_, hb.cl, hb.entrySome, hb.entryNone, hb.startsLe,
      ?_, ?_, hb.tlogEq, hb.cacheMiss, hb.locked⟩
    · refine forall_update hw hb.wk ?_
      intro p hp2
      rcases hp2 with h2 | h2
      · exact WorkerState.noConfusion h2
      · exact WorkerState.noConfusion h2
    · have hOE := hb.ownersEq
      simp only [owners, preGen, postGen, countKey] at hOE ⊢
      rw [hw] at hOE
      simp [List.countP_append, List.countP_cons, workerPreOwner, workerPostOwner] at hOE ⊢
      omega
    · have hGE := hb.gensEq
      simp only [postGen, countKey] at hGE ⊢
      rw [hw] at hGE
      simp [List.countP_append, List.countP_cons, workerPostOwner] at hGE ⊢
      omega
  | wCloseNone _ w1 w2 cls hw =>
    refine ⟨hA, hb.qi, hb.qm, ?_, hb.cl, hb.entrySome, hb.entryNone, hb.startsLe,
      ?_, ?_, hb.tlogEq, hb.cacheMiss, hb.locked⟩
    · refine forall_update hw hb.wk ?_
      intro p hp2
      rcases hp2 with h2 | h2
      · exact WorkerState.noConfusion h2
      · exact WorkerState.noConfusion h2
    · have hOE := hb.ownersEq
      simp only [owners, preGen, postGen, countKey] at hOE ⊢
      rw [hw] at hOE
      simp [List.countP_append, List.countP_cons, workerPreOwner, workerPostOwner] at hOE ⊢
      omega
    · have hGE := hb.gensEq
      simp only [postGen, countKey] at hGE ⊢
      rw [hw] at hGE
      simp [List.countP_append, List.countP_cons, workerPostOwner] at hGE ⊢
      omega

/-! ## The dedup scenario: N concurrent callers for one uncached source -/

/-- Initial configuration of the dedup scenario: `n` callers about to
request the artifact of the single source path `ip`; the worker pools
of `main` (two image workers, one movie worker, main.go lines 141-142);
empty registry and queues. -/
def initScenario (n : Nat) (ip : String) (cache0 : List String) : Config :=
  { pending := [], closedCh := [], iq := [], mq := [], cache := cache0, nextCh := 0,
    callers := List.replicate n (CallerState.start ip),
    workers := [(MediaClass.image, WorkerState.idle), (MediaClass.image, WorkerState.idle),
                (MediaClass.movie, WorkerState.idle)],
    tlog := [], starts := 0, dels := 0, gens := 0 }

theorem countP_replicate_false {α : Type} (p : α → Bool) (x : α) (hx : p x = false)
    (n : Nat) : (List.replicate n x).countP p = 0 := by
  induction n with
  | zero => rfl
  | succ m ih => simp [List.replicate_succ, List.countP_cons, hx, ih]

theorem invB_init (n : Nat) (ip : String) (cache0 : List String)
    (hmiss : cache0.contains (getThumbnailPath ip) = false) :
    InvB ip (initScenario n ip cache0) := by
  have hinit : InitConfig (initScenario n ip cache0) := by
    refine ⟨rfl, rfl, rfl, ?_, ?_⟩
    · intro w hw
      simp [initScenario] at hw
      rcases hw with rfl | rfl | rfl <;> rfl
    · intro cs hcs
      exact ⟨ip, List.eq_of_mem_replicate hcs⟩
  refine ⟨invA_init hinit, ?_, ?_, ?_, ?_, ?_, ?_, ?_, ?_, ?_, ?_, ?_, ?_⟩
  · intro p hp; simp [initScenario] at hp
  · intro p hp; simp [initScenario] at hp
  · intro w hw p hp
    simp [initScenario] at hw
    rcases hw with rfl | rfl | rfl <;>
      (rcases hp with h2 | h2 <;> exact WorkerState.noConfusion h2)
  · intro cs hcs p hp
    have := List.eq_of_mem_replicate hcs
    rw [this] at hp
    simp [callerIp] at hp
    exact hp.symm
  · intro h2; simp [initScenario, lookupP] at h2
  · intro _; rfl
  · exact Nat.zero_le 1
  · simp only [owners, preGen, postGen, countKey, initScenario]
    rw [countP_replicate_false
          (callerPreOwner (getThumbnailPath ip)) (CallerState.start ip) rfl,
        countP_replicate_false
          (callerPostOwner (getThumbnailPath ip)) (CallerState.start ip) rfl]
    rfl
  · simp only [postGen, initScenario]
    rw [countP_replicate_false
          (callerPostOwner (getThumbnailPath ip)) (CallerState.start ip) rfl]
    rfl
  · rfl
  · intro _; exact hmiss
  · intro _ cs hcs
    exact List.eq_of_mem_replicate hcs

theorem reachW_invB {n : Nat} {ip : String} {cache0 : List String} {c' : Config}
    (hsup : (routeClass ip).isSome = true)
    (hmiss : cache0.contains (getThumbnailPath ip) = false)
    (h : ReachW (initScenario n ip cache0) c') : InvB ip c' := by
  induction h with
  | refl => exact invB_init n ip cache0 hmiss
  | tail b d l hr hstep hs ho ih => exact invB_step hsup hstep ih hs ho

/-! ## Settled configurations and the Transcoder count -/

def isDone : CallerState → Bool
  | CallerState.done _ => true
  | _ => false

def isIdleW : MediaClass × WorkerState → Bool
  | (_, WorkerState.idle) => true
  | _ => false

/-- All requests returned, queues drained, workers blocked again. -/
def Settled (c : Config) : Prop :=
  c.callers.all isDone = true ∧ c.iq = [] ∧ c.mq = [] ∧ c.workers.all isIdleW = true

/-- Number of Transcoder invocations recorded for a key. -/
def tcount (c : Config) (k : String) : Nat :=
  c.tlog.countP (fun x => decide (x = k))

theorem step_callers_len {lab : StepLabel} {c c' : Config} (h : Step lab c c') :
    c'.callers.length = c.callers.length := by
  cases h with
  | startJoin _ l1 l2 ip ch hc hp => rw [hc]; simp
  | startNewSupported _ l1 l2 ip cls hc hp hr => rw [hc]; simp
  | startNewUnsupported _ l1 l2 ip hc hp hr => rw [hc]; simp
  | enqueueOk _ l1 l2 ip ch cls hc hr hq => cases cls <;> (rw [hc]; simp [withQueue])
  | enqueueFull _ l1 l2 ip ch cls hc hr hq => rw [hc]; simp
  | fbGenStep _ l1 l2 ip ch o hc => rw [hc]; simp
  | fbCloseStep _ l1 l2 ip ch r hc => rw [hc]; simp
  | fbDeleteStep _ l1 l2 ip ch r hc => rw [hc]; simp
  | wake _ l1 l2 ip ch hc hcl2 => rw [hc]; simp
  | timeoutStep _ l1 l2 ip ch hc => rw [hc]; simp
  | wDequeue _ w1 w2 cls ip rest hw hq => cases cls <;> rfl
  | wGenStep _ w1 w2 cls ip o hw => rfl
  | wLoadDel _ w1 w2 cls ip hw => rfl
  | wCloseSome _ w1 w2 cls ch hw => rfl
  | wCloseNone _ w1 w2 cls hw => rfl

theorem reachW_callers_len {c c' : Config} (h : ReachW c c') :
    c'.callers.length = c.callers.length := by
  induction h with
  | refl => rfl
  | tail b d l hr hstep hs ho ih => rw [step_callers_len hstep, ih]

/-- In a settled configuration there are no owners left. -/
theorem owners_zero_of_settled {c : Config} (h : Settled c) (k : String) :
    owners c k = 0 := by
  obtain ⟨hcs, hiq, hmq, hws⟩ := h
  rw [List.all_eq_true] at hcs hws
  have h1 : c.callers.countP (callerPreOwner k) = 0 := by
    rw [List.countP_eq_zero]
    intro cs hc
    have := hcs cs hc
    cases cs <;> simp_all [isDone, callerPreOwner]
  have h2 : c.callers.countP (callerPostOwner k) = 0 := by
    rw [List.countP_eq_zero]
    intro cs hc
    have := hcs cs hc
    cases cs <;> simp_all [isDone, callerPostOwner]
  have h3 : c.workers.countP (workerPreOwner k) = 0 := by
    rw [List.countP_eq_zero]
    intro w hw
    have := hws w hw
    cases w with
    | mk cls ws => cases ws <;> simp_all [isIdleW, workerPreOwner]
  have h4 : c.workers.countP (workerPostOwner k) = 0 := by
    rw [List.countP_eq_zero]
    intro w hw
    have := hws w hw
    cases w with
    | mk cls ws => cases ws <;> simp_all [isIdleW, workerPostOwner]
  simp [owners, preGen, postGen, countKey, hiq, hmq, h1, h2, h3, h4]

theorem postGen_zero_of_settled {c : Config} (h : Settled c) (k : String) :
    postGen c k = 0 := by
  have h0 := owners_zero_of_settled h k
  simp only [owners] at h0
  omega

/-- The scenario conclusion: along any window-restricted trace the
Transcoder runs at most once for the scenario key, and exactly once by
the time the system settles (given at least one request). -/
theorem scenario_tcount {n : Nat} {ip : String} {cache0 : List String} {c' : Config}
    (hsup : (routeClass ip).isSome = true)
    (hmiss : cache0.contains (getThumbnailPath ip) = false)
    (h : ReachW (initScenario n ip cache0) c') :
    tcount c' (getThumbnailPath ip) ≤ 1 ∧
      (Settled c' → 1 ≤ n → tcount c' (getThumbnailPath ip) = 1) := by
  have hb := reachW_invB hsup hmiss h
  have h1 := hb.tlogEq
  have h2 := hb.gensEq
  have h3 := hb.ownersEq
  have h4 := hb.startsLe
  have h5 : owners c' (getThumbnailPath ip) =
      preGen c' (getThumbnailPath ip) + postGen c' (getThumbnailPath ip) := rfl
  constructor
  · simp only [tcount]
    omega
  · intro hsettle hn
    have h6 := owners_zero_of_settled hsettle (getThumbnailPath ip)
    have h7 := postGen_zero_of_settled hsettle (getThumbnailPath ip)
    have hlen : c'.callers.length = n := by
      rw [reachW_callers_len h]
      simp [initScenario]
    have hs1 : 0 < c'.starts := by
      rcases Nat.eq_zero_or_pos c'.starts with h0 | hpos
      · exfalso
        have hne : c'.callers ≠ [] := by
          intro hnil
          rw [hnil] at hlen
          simp at hlen
          omega
        obtain ⟨cs, hcs⟩ := List.exists_mem_of_ne_nil c'.callers hne
        have hst := hb.locked h0 cs hcs
        obtain ⟨hall, _, _, _⟩ := hsettle
        rw [List.all_eq_true] at hall
        have := hall cs hcs
        rw [hst] at this
        simp [isDone] at this
      · exact hpos
    simp only [tcount]
    omega

/-! ## Claim C1 -/

/-- **C1.**  For every artifact key, at most one pending-generation
entry exists in the registry at any instant (the pending map's keys are
duplicate-free in every reachable configuration), and at most one
generation task for that key is queued or executing (`genTasks ≤ 1`);
consequently, for any number `n ≥ 1` of concurrent requests for the
same uncached supported source file — concurrent in the spec's sense
that every caller's load-or-insert happens before any completed
generation is removed from the registry, which is the `ReachW` window,
and with the filesystem preparation (mkdir / open) succeeding so that a
generation attempt reaches the Transcoder — the Transcoder is invoked
at most once along the trace, and exactly once by the time every
request has returned and the queues and workers are drained.  Only the
caller whose load-or-insert created the entry proceeds to the enqueue
or fallback states (`Step.startNewSupported` is the sole transition
into `CallerState.enqueuing`, and it requires the registry lookup to
miss). -/
theorem c1_single_pending_and_transcode_once :
    (∀ c c' : Config, InitConfig c → Reach c c' →
      (c'.pending.map Prod.fst).Nodup ∧ ∀ k, genTasks c' k ≤ 1)
    ∧ ∀ (n : Nat) (ip : String) (cache0 : List String) (c' : Config),
        (routeClass ip).isSome = true →
        cache0.contains (getThumbnailPath ip) = false →
        ReachW (initScenario n ip cache0) c' →
        tcount c' (getThumbnailPath ip) ≤ 1 ∧
          (Settled c' → 1 ≤ n → tcount c' (getThumbnailPath ip) = 1) := by
  constructor
  · intro c c' hi hr
    have hA := reach_invA hi hr
    exact ⟨hA.nodup, fun k => le_trans (genTasks_le_owners c' k) (hA.ownLe k)⟩
  · intro n ip cache0 c' hsup hmiss h
    exact scenario_tcount hsup hmiss h

/-- Source path, oracle and final configuration of the concrete
two-caller dedup run used to witness C1. -/
def wIp : String := "/g/a.jpg"

def wKey : String := getThumbnailPath wIp

def wO : GenOracle := { mkdirOk := true, openOk := true, tool := ToolOutcome.success }

def wCF : Config :=
  { pending := [], closedCh := [0], iq := [], mq := [], cache := [wKey], nextCh := 1,
    callers := [CallerState.done (Except.ok ()), CallerState.done (Except.ok ())],
    workers := [(MediaClass.image, WorkerState.idle), (MediaClass.image, WorkerState.idle),
                (MediaClass.movie, WorkerState.idle)],
    tlog := [wKey], starts := 1, dels := 1, gens := 1 }

theorem c1_witness : genTasks wCF wKey ≤ 1 ∧ tcount wCF wKey = 1 := by
  have t0 : ReachW (initScenario 2 wIp []) (initScenario 2 wIp []) := ReachW.refl _
  have t1 := ReachW.tail _ _ _ _ t0
    (Step.startNewSupported (initScenario 2 wIp []) [] [CallerState.start wIp] wIp
      MediaClass.image rfl rfl (by decide))
    (fun _ => rfl) (fun o ho => Option.noConfusion ho)
  have t2 := ReachW.tail _ _ _ _ t1
    (Step.startJoin _ [CallerState.enqueuing wIp 0] [] wIp 0 rfl (by decide))
    (fun _ => rfl) (fun o ho => Option.noConfusion ho)
  have t3 := ReachW.tail _ _ _ _ t2
    (Step.enqueueOk _ [] [CallerState.waiting wIp 0] wIp 0 MediaClass.image rfl
      (by decide) (by decide))
    (fun h => Bool.noConfusion h) (fun o ho => Option.noConfusion ho)
  have t4 := ReachW.tail _ _ _ _ t3
    (Step.wDequeue _ [] [(MediaClass.image, WorkerState.idle),
        (MediaClass.movie, WorkerState.idle)] MediaClass.image wIp [] rfl rfl)
    (fun h => Bool.noConfusion h) (fun o ho => Option.noConfusion ho)
  have t5 := ReachW.tail _ _ _ _ t4
    (Step.wGenStep _ [] [(MediaClass.image, WorkerState.idle),
        (MediaClass.movie, WorkerState.idle)] MediaClass.image wIp wO rfl)
    (fun h => Bool.noConfusion h)
    (fun o ho => by cases ho; exact ⟨rfl, rfl⟩)
  have t6 := ReachW.tail _ _ _ _ t5
    (Step.wLoadDel _ [] [(MediaClass.image, WorkerState.idle),
        (MediaClass.movie, WorkerState.idle)] MediaClass.image wIp rfl)
    (fun h => Bool.noConfusion h) (fun o ho => Option.noConfusion ho)
  have t7 := ReachW.tail _ _ _ _ t6
    (Step.wCloseSome _ [] [(MediaClass.image, WorkerState.idle),
        (MediaClass.movie, WorkerState.idle)] MediaClass.image 0 (by decide))
    (fun h => Bool.noConfusion h) (fun o ho => Option.noConfusion ho)
  have t8 := ReachW.tail _ _ _ _ t7
    (Step.wake _ [] [CallerState.waiting wIp 0] wIp 0 rfl (by decide))
    (fun h => Bool.noConfusion h) (fun o ho => Option.noConfusion ho)
  have t9 := ReachW.tail _ _ _ _ t8
    (Step.wake _ [CallerState.done (Except.ok ())] [] wIp 0 (by decide) (by decide))
    (fun h => Bool.noConfusion h) (fun o ho => Option.noConfusion ho)
  have hInit : InitConfig (initScenario 2 wIp []) := by
    refine ⟨rfl, rfl, rfl, by decide, ?_⟩
    intro cs hcs
    exact ⟨wIp, List.eq_of_mem_replicate hcs⟩
  have htr : ReachW (initScenario 2 wIp []) wCF := t9
  constructor
  · exact (c1_single_pending_and_transcode_once.1 (initScenario 2 wIp []) wCF hInit
      (reachW_reach htr)).2 wKey
  · exact (c1_single_pending_and_transcode_once.2 2 wIp [] wCF (by decide) (by decide)
      htr).2 ⟨rfl, rfl, rfl, rfl⟩ (by decide)

/-! ## Claim C2 -/

/-- **C2.**  For every source path dequeued by a worker of either
class, once the generation attempt has returned (worker state
`afterGen`, whether the attempt succeeded or failed — the state does
not depend on the result), the registry entry for the artifact key is
present (by the reachable-state invariant), and the worker's two
remaining actions — the `LoadAndDelete` of main.go lines 580/601 and
the `close` of lines 581/602 — are enabled and lead to a configuration
in which the entry is removed and the signal is closed; in that
configuration every caller joined on that signal has its wake
transition enabled and returns, so no joined waiter is left waiting
past the generation attempt's completion. -/
theorem c2_worker_completes_and_wakes_all :
    ∀ (c0 c : Config), InitConfig c0 → Reach c0 c →
    ∀ (w1 w2 : List (MediaClass × WorkerState)) (cls : MediaClass) (ip : String),
    c.workers = w1 ++ (cls, WorkerState.afterGen ip) :: w2 →
    ∃ ch : Nat,
      lookupP c.pending (getThumbnailPath ip) = some ch ∧
      Step ⟨false, none⟩ c
        { c with pending := eraseKey c.pending (getThumbnailPath ip),
                 dels := c.dels + 1,
                 workers := w1 ++ (cls, WorkerState.closing (some ch)) :: w2 } ∧
      Step ⟨false, none⟩
        { c with pending := eraseKey c.pending (getThumbnailPath ip),
                 dels := c.dels + 1,
                 workers := w1 ++ (cls, WorkerState.closing (some ch)) :: w2 }
        { c with pending := eraseKey c.pending (getThumbnailPath ip),
                 dels := c.dels + 1,
                 closedCh := ch :: c.closedCh,
                 workers := w1 ++ (cls, WorkerState.idle) :: w2 } ∧
      lookupP (eraseKey c.pending (getThumbnailPath ip)) (getThumbnailPath ip) = none ∧
      ch ∈ ch :: c.closedCh ∧
      (∀ (l1 l2 : List CallerState) (ip' : String),
        c.callers = l1 ++ CallerState.waiting ip' ch :: l2 →
        Step ⟨false, none⟩
          { c with pending := eraseKey c.pending (getThumbnailPath ip),
                   dels := c.dels + 1,
                   closedCh := ch :: c.closedCh,
                   workers := w1 ++ (cls, WorkerState.idle) :: w2 }
          { c with pending := eraseKey c.pending (getThumbnailPath ip),
                   dels := c.dels + 1,
                   closedCh := ch :: c.closedCh,
                   workers := w1 ++ (cls, WorkerState.idle) :: w2,
                   callers := l1 ++ CallerState.done
                     (if c.cache.contains (getThumbnailPath ip') then Except.ok ()
                      else Except.error CoordError.notFoundAfterGen) :: l2 }) := by
  intro c0 c hi hr w1 w2 cls ip hw
  have hA := reach_invA hi hr
  have hpos : 0 < owners c (getThumbnailPath ip) := by
    simp only [owners, preGen, postGen, countKey]
    rw [hw]
    simp [List.countP_append, List.countP_cons, workerPreOwner, workerPostOwner]
  have hsome := hA.ownEntry _ hpos
  obtain ⟨ch, hlook⟩ := Option.isSome_iff_exists.mp hsome
  refine ⟨ch, hlook, ?_, ?_, lookupP_eraseKey_self _ _, List.mem_cons_self _ _, ?_⟩
  · have hstep := Step.wLoadDel c w1 w2 cls ip hw
    rw [hlook] at hstep
    simpa using hstep
  · exact Step.wCloseSome _ w1 w2 cls ch rfl
  · intro l1 l2 ip' hcall
    exact Step.wake _ l1 l2 ip' ch hcall (List.mem_cons_self _ _)

def wC2 : Config :=
  { pending := [(wKey, 0)], closedCh := [], iq := [], mq := [], cache := [wKey],
    nextCh := 1, callers := [CallerState.waiting wIp 0],
    workers := [(MediaClass.image, WorkerState.afterGen wIp),
                (MediaClass.image, WorkerState.idle), (MediaClass.movie, WorkerState.idle)],
    tlog := [wKey], starts := 1, dels := 0, gens := 1 }

theorem c2_witness :
    ∃ ch : Nat,
      lookupP wC2.pending (getThumbnailPath wIp) = some ch ∧
      Step ⟨false, none⟩ wC2
        { wC2 with pending := eraseKey wC2.pending (getThumbnailPath wIp),
                   dels := wC2.dels + 1,
                   workers := [] ++ (MediaClass.image, WorkerState.closing (some ch)) ::
                     [(MediaClass.image, WorkerState.idle),
                      (MediaClass.movie, WorkerState.idle)] } ∧
      Step ⟨false, none⟩
        { wC2 with pending := eraseKey wC2.pending (getThumbnailPath wIp),
                   dels := wC2.dels + 1,
                   workers := [] ++ (MediaClass.image, WorkerState.closing (some ch)) ::
                     [(MediaClass.image, WorkerState.idle),
                      (MediaClass.movie, WorkerState.idle)] }
        { wC2 with pending := eraseKey wC2.pending (getThumbnailPath wIp),
                   dels := wC2.dels + 1,
                   closedCh := ch :: wC2.closedCh,
                   workers := [] ++ (MediaClass.image, WorkerState.idle) ::
                     [(MediaClass.image, WorkerState.idle),
                      (MediaClass.movie, WorkerState.idle)] } ∧
      lookupP (eraseKey wC2.pending (getThumbnailPath wIp)) (getThumbnailPath wIp)
        = none ∧
      ch ∈ ch :: wC2.closedCh ∧
      (∀ (l1 l2 : List CallerState) (ip' : String),
        wC2.callers = l1 ++ CallerState.waiting ip' ch :: l2 →
        Step ⟨false, none⟩
          { wC2 with pending := eraseKey wC2.pending (getThumbnailPath wIp),
                     dels := wC2.dels + 1,
                     closedCh := ch :: wC2.closedCh,
                     workers := [] ++ (MediaClass.image, WorkerState.idle) ::
                       [(MediaClass.image, WorkerState.idle),
                        (MediaClass.movie, WorkerState.idle)] }
          { wC2 with pending := eraseKey wC2.pending (getThumbnailPath wIp),
                     dels := wC2.dels + 1,
                     closedCh := ch :: wC2.closedCh,
                     workers := [] ++ (MediaClass.image, WorkerState.idle) ::
                       [(MediaClass.image, WorkerState.idle),
                        (MediaClass.movie, WorkerState.idle)],
                     callers := l1 ++ CallerState.done
                       (if wC2.cache.contains (getThumbnailPath ip') then Except.ok ()
                        else Except.error CoordError.notFoundAfterGen) :: l2 }) := by
  have t0 : Reach (initScenario 1 wIp []) (initScenario 1 wIp []) := Reach.refl _
  have t1 := Reach.tail _ _ _ _ t0
    (Step.startNewSupported (initScenario 1 wIp []) [] [] wIp MediaClass.image
      rfl rfl (by decide))
  have t2 := Reach.tail _ _ _ _ t1
    (Step.enqueueOk _ [] [] wIp 0 MediaClass.image rfl (by decide) (by decide))
  have t3 := Reach.tail _ _ _ _ t2
    (Step.wDequeue _ [] [(MediaClass.image, WorkerState.idle),
        (MediaClass.movie, WorkerState.idle)] MediaClass.image wIp [] rfl rfl)
  have t4 := Reach.tail _ _ _ _ t3
    (Step.wGenStep _ [] [(MediaClass.image, WorkerState.idle),
        (MediaClass.movie, WorkerState.idle)] MediaClass.image wIp wO rfl)
  have hInit : InitConfig (initScenario 1 wIp []) := by
    refine ⟨rfl, rfl, rfl, by decide, ?_⟩
    intro cs hcs
    exact ⟨wIp, List.eq_of_mem_replicate hcs⟩
  have htr : Reach (initScenario 1 wIp []) wC2 := t4
  exact c2_worker_completes_and_wakes_all (initScenario 1 wIp []) wC2 hInit htr
    [] [(MediaClass.image, WorkerState.idle), (MediaClass.movie, WorkerState.idle)]
    MediaClass.image wIp rfl

/-! ## Claim C4 -/

/-- **C4.**  A starter caller (state `enqueuing`, reached only through
the registry-creating load-or-insert) whose class queue is full at
enqueue time never blocks on queue space: the queue-full branch of the
`select` (main.go lines 547-552) is an enabled transition, and from it
the caller performs the generation inline on its own thread, then fires
(closes) its completion signal and removes the registry entry itself,
ending done with exactly the generation attempt's result; the class
queues are never touched along the way, so the request is neither
enqueued nor dropped. -/
theorem c4_queue_full_synchronous_fallback :
    ∀ (c : Config) (l1 l2 : List CallerState) (ip : String) (ch : Nat) (cls : MediaClass),
    c.callers = l1 ++ CallerState.enqueuing ip ch :: l2 →
    routeClass ip = some cls →
    ¬ (queueOf c cls).length < queueSize →
    ∀ o : GenOracle,
      ∃ c1 c2 c3 c4 : Config,
        Step ⟨false, none⟩ c c1 ∧
        Step ⟨false, some o⟩ c1 c2 ∧
        Step ⟨false, none⟩ c2 c3 ∧
        Step ⟨false, none⟩ c3 c4 ∧
        c4.callers = l1 ++ CallerState.done
          ((generateThumbnail o ip c.cache).1.mapError CoordError.fallback) :: l2 ∧
        lookupP c4.pending (getThumbnailPath ip) = none ∧
        ch ∈ c4.closedCh ∧
        c1.iq = c.iq ∧ c1.mq = c.mq ∧ c2.iq = c.iq ∧ c2.mq = c.mq ∧
        c3.iq = c.iq ∧ c3.mq = c.mq ∧ c4.iq = c.iq ∧ c4.mq = c.mq := by
  intro c l1 l2 ip ch cls hc hr hq o
  refine ⟨_, _, _, _,
    Step.enqueueFull c l1 l2 ip ch cls hc hr hq,
    Step.fbGenStep _ l1 l2 ip ch o rfl,
    Step.fbCloseStep _ l1 l2 ip ch _ rfl,
    Step.fbDeleteStep _ l1 l2 ip ch _ rfl,
    rfl, lookupP_eraseKey_self _ _, List.mem_cons_self _ _,
    rfl, rfl, rfl, rfl, rfl, rfl, rfl, rfl⟩

def wC4 : Config :=
  { pending := [(wKey, 0)], closedCh := [], iq := List.replicate queueSize wIp, mq := [],
    cache := [], nextCh := 1, callers := [CallerState.enqueuing wIp 0],
    workers := [(MediaClass.image, WorkerState.idle), (MediaClass.image, WorkerState.idle),
                (MediaClass.movie, WorkerState.idle)],
    tlog := [], starts := 1, dels := 0, gens := 0 }

theorem c4_witness :
    ∃ c1 c2 c3 c4 : Config,
      Step ⟨false, none⟩ wC4 c1 ∧
      Step ⟨false, some wO⟩ c1 c2 ∧
      Step ⟨false, none⟩ c2 c3 ∧
      Step ⟨false, none⟩ c3 c4 ∧
      c4.callers = [] ++ CallerState.done
        ((generateThumbnail wO wIp wC4.cache).1.mapError CoordError.fallback) :: [] ∧
      lookupP c4.pending (getThumbnailPath wIp) = none ∧
      0 ∈ c4.closedCh ∧
      c1.iq = wC4.iq ∧ c1.mq = wC4.mq ∧ c2.iq = wC4.iq ∧ c2.mq = wC4.mq ∧
      c3.iq = wC4.iq ∧ c3.mq = wC4.mq ∧ c4.iq = wC4.iq ∧ c4.mq = wC4.mq :=
  c4_queue_full_synchronous_fallback wC4 [] [] wIp 0 MediaClass.image rfl (by decide)
    (by simp [wC4, queueOf]) wO

/-! ## Claim C5 -/

/-- **C5.**  A caller in the `WAITING` state sits in the `select` of
main.go lines 557-566 whose timeout arm is `time.After(30 *
time.Second)` — the embedded timeout constant is 30 seconds.  When the
joined signal has fired (its channel is closed), the wake transition is
enabled: the caller re-checks whether the cache file exists and ends
with success exactly when it does and with the generation-failure error
otherwise.  The timeout transition ends with the timeout error.  Both
exits replace only the caller's own state: the pending registry, both
class queues, the cache, the set of closed signals, and the workers (in
particular any in-flight generation) are left untouched. -/
theorem c5_waiting_timeout_and_recheck :
    ∀ (c : Config) (l1 l2 : List CallerState) (ip : String) (ch : Nat),
    c.callers = l1 ++ CallerState.waiting ip ch :: l2 →
    waitTimeoutSeconds = 30 ∧
    (ch ∈ c.closedCh →
      Step ⟨false, none⟩ c
        { c with callers := l1 ++ CallerState.done (if
            c.cache.contains (getThumbnailPath ip) then Except.ok ()
            else Except.error CoordError.notFoundAfterGen) :: l2 }) ∧
    Step ⟨false, none⟩ c
      { c with callers := l1 ++ CallerState.done (Except.error
          CoordError.timeout) :: l2 } ∧
    (∀ r : Except CoordError Unit,
      ({ c with callers := l1 ++ CallerState.done r :: l2 } : Config).pending = c.pending ∧
      ({ c with callers := l1 ++ CallerState.done r :: l2 } : Config).iq = c.iq ∧
      ({ c with callers := l1 ++ CallerState.done r :: l2 } : Config).mq = c.mq ∧
      ({ c with callers := l1 ++ CallerState.done r :: l2 } : Config).cache = c.cache ∧
      ({ c with callers := l1 ++ CallerState.done r :: l2 } : Config).closedCh = c.closedCh ∧
      ({ c with callers := l1 ++ CallerState.done r :: l2 } : Config).workers = c.workers) := by
  intro c l1 l2 ip ch hc
  refine ⟨rfl, ?_, ?_, ?_⟩
  · intro hcl
    exact Step.wake c l1 l2 ip ch hc hcl
  · exact Step.timeoutStep c l1 l2 ip ch hc
  · intro r
    exact ⟨rfl, rfl, rfl, rfl, rfl, rfl⟩

def wC5 : Config :=
  { pending := [], closedCh := [0], iq := [], mq := [], cache := [wKey],
    nextCh := 1, callers := [CallerState.waiting wIp 0],
    workers := [(MediaClass.image, WorkerState.idle), (MediaClass.image, WorkerState.idle),
                (MediaClass.movie, WorkerState.idle)],
    tlog := [wKey], starts := 1, dels := 1, gens := 1 }

theorem c5_witness :
    waitTimeoutSeconds = 30 ∧
    (0 ∈ wC5.closedCh →
      Step ⟨false, none⟩ wC5
        { wC5 with callers := [] ++ CallerState.done (if
            wC5.cache.contains (getThumbnailPath wIp) then Except.ok ()
            else Except.error CoordError.notFoundAfterGen) :: [] }) ∧
    Step ⟨false, none⟩ wC5
      { wC5 with callers := [] ++ CallerState.done (Except.error
          CoordError.timeout) :: [] } ∧
    (∀ r : Except CoordError Unit,
      ({ wC5 with callers := [] ++ CallerState.done r :: [] } : Config).pending
          = wC5.pending ∧
      ({ wC5 with callers := [] ++ CallerState.done r :: [] } : Config).iq = wC5.iq ∧
      ({ wC5 with callers := [] ++ CallerState.done r :: [] } : Config).mq = wC5.mq ∧
      ({ wC5 with callers := [] ++ CallerState.done r :: [] } : Config).cache
          = wC5.cache ∧
      ({ wC5 with callers := [] ++ CallerState.done r :: [] } : Config).closedCh
          = wC5.closedCh ∧
      ({ wC5 with callers := [] ++ CallerState.done r :: [] } : Config).workers
          = wC5.workers) :=
  c5_waiting_timeout_and_recheck wC5 [] [] wIp 0 rfl

/-! ## Claim C3 -/

/-- **C3** (the code, evaluated at the failing input).  In
`queueAndWaitForThumbnail` the `LoadOrStore` on the pending registry
(main.go line 527) happens *before* the media-class check (lines
530-541), and the unsupported-type return at line 540 performs no
cleanup.  Concretely: a fresh request for `/g/notes.txt` (extension in
neither class table) takes the coordinator's first step to the
unsupported-type error, yet the step leaves a registry entry — whose
channel is never closed — for the artifact key behind; nothing is
enqueued on either queue.  The spec's claim that the error is returned
before any registry interaction with no entry left behind is therefore
violated by the code. -/
theorem c3_unsupported_type_leaks_registry_entry :
    routeClass "/g/notes.txt" = none ∧
    Step ⟨true, none⟩
      { pending := [], closedCh := [], iq := [], mq := [], cache := [], nextCh := 0,
        callers := [CallerState.start "/g/notes.txt"],
        workers := [(MediaClass.image, WorkerState.idle),
                    (MediaClass.image, WorkerState.idle),
                    (MediaClass.movie, WorkerState.idle)],
        tlog := [], starts := 0, dels := 0, gens := 0 }
      { pending := [(getThumbnailPath "/g/notes.txt", 0)], closedCh := [], iq := [],
        mq := [], cache := [], nextCh := 1,
        callers := [CallerState.done (Except.error CoordError.unsupportedType)],
        workers := [(MediaClass.image, WorkerState.idle),
                    (MediaClass.image, WorkerState.idle),
                    (MediaClass.movie, WorkerState.idle)],
        tlog := [], starts := 1, dels := 0, gens := 0 } ∧
    lookupP [(getThumbnailPath "/g/notes.txt", 0)] (getThumbnailPath "/g/notes.txt")
      = some 0 ∧
    (0 : Nat) ∉ ([] : List Nat) := by
  refine ⟨by decide, ?_, by decide, by decide⟩
  exact Step.startNewUnsupported _ [] [] "/g/notes.txt" rfl rfl (by decide)

/-! ## Claim C6 -/

/-- **C6.**  When the generation attempt fails at the tool (Transcoder
failure, with the class supported and the filesystem preparation
succeeding so the tool is actually reached), `generateThumbnail`
returns the tool-failure error and leaves the cache exactly as it was —
in particular no entry for the artifact key, which by hypothesis was a
miss; consequently any subsequent attempt for the same key on that
cache state invokes the Transcoder again instead of treating the
failure as cached. -/
theorem c6_failed_generation_leaves_no_entry :
    ∀ (o : GenOracle) (ip : String) (cache : List String) (cls : MediaClass),
    routeClass ip = some cls →
    o.mkdirOk = true → o.openOk = true → o.tool = ToolOutcome.failure →
    cache.contains (getThumbnailPath ip) = false →
    generateThumbnail o ip cache = (Except.error GenError.toolFailed, cache, true) ∧
    ∀ o' : GenOracle, o'.mkdirOk = true → o'.openOk = true →
      (generateThumbnail o' ip cache).2.2 = true := by
  intro o ip cache cls hr hmk hopen htool hmiss
  constructor
  · unfold generateThumbnail
    simp only [hmiss, hmk, htool, Bool.false_eq_true, if_false, Bool.true_eq_false]
    by_cases hm : movieExtensions (asciiLower (filepathExt ip)) = true
    · simp [hm]
    · by_cases hi : imageExtensions (asciiLower (filepathExt ip)) = true
      · simp [hm, hi, hopen]
      · exfalso
        unfold routeClass at hr
        simp [hm, hi] at hr
  · intro o' hmk' hopen'
    exact generateThumbnail_transcodes o' ip cache hmiss hmk' hopen' (by rw [hr]; rfl)

theorem c6_witness :
    generateThumbnail ⟨true, true, ToolOutcome.failure⟩ wIp []
        = (Except.error GenError.toolFailed, [], true) ∧
    (generateThumbnail wO wIp []).2.2 = true := by
  have h := c6_failed_generation_leaves_no_entry ⟨true, true, ToolOutcome.failure⟩ wIp []
    MediaClass.image (by decide) rfl rfl rfl (by decide)
  exact ⟨h.1, h.2 wO rfl rfl⟩

/-! ## Claims C8 / C10: the cache-hit paths -/

/-- Shared helper: the handler's cache-hit path serves the thumbnail
file without invoking the coordinator, for any source path. -/
theorem handleThumbnail_hit (files : List String) (fullPath : String)
    (coord : String → String → Except CoordError Unit)
    (h1 : files.contains fullPath = true)
    (h2 : files.contains (getThumbnailPath fullPath) = true) :
    handleThumbnail files fullPath coord
      = (ThumbResponse.serveFile (getThumbnailPath fullPath), false) := by
  have m1 : fullPath ∈ files := by simpa using h1
  have m2 : getThumbnailPath fullPath ∈ files := by simpa using h2
  simp [handleThumbnail, m1, m2]

/-- **C8.**  Generation is idempotent on an existing cache entry: when
the thumbnail file already exists, a direct `generateThumbnail` call
returns success with the Transcoder invoked zero times and the cache —
including the existing file — unmodified; and a request through the
thumbnail endpoint for such a key serves the file with the coordinator
(hence the Transcoder) never invoked. -/
theorem c8_existing_entry_noop :
    (∀ (o : GenOracle) (ip : String) (cache : List String),
      cache.contains (getThumbnailPath ip) = true →
      generateThumbnail o ip cache = (Except.ok (), cache, false))
    ∧ ∀ (files : List String) (fullPath : String)
        (coord : String → String → Except CoordError Unit),
        files.contains fullPath = true →
        files.contains (getThumbnailPath fullPath) = true →
        (handleThumbnail files fullPath coord).2 = false ∧
        (handleThumbnail files fullPath coord).1
          = ThumbResponse.serveFile (getThumbnailPath fullPath) := by
  constructor
  · intro o ip cache hhit
    have hm : getThumbnailPath ip ∈ cache := by simpa using hhit
    unfold generateThumbnail
    simp [hm]
  · intro files fullPath coord h1 h2
    rw [handleThumbnail_hit files fullPath coord h1 h2]
    exact ⟨rfl, rfl⟩

def wCoord : String → String → Except CoordError Unit := fun _ _ => Except.ok ()

theorem c8_witness :
    generateThumbnail wO wIp [wKey] = (Except.ok (), [wKey], false) ∧
    (handleThumbnail [wIp, wKey] wIp wCoord).2 = false := by
  refine ⟨c8_existing_entry_noop.1 wO wIp [wKey] (by decide), ?_⟩
  exact (c8_existing_entry_noop.2 [wIp, wKey] wIp wCoord (by decide) (by decide)).1

/-! ## Claim C10 -/

/-- **C10.**  The thumbnail endpoint's cache-hit path performs no
media-class check: for every source path — the statement quantifies
over all paths, including those whose extension is in neither class
table — whose file exists and whose resolved thumbnail file exists, the
handler serves the thumbnail directly without calling the coordinator.
Conversely, any generation-error response (in particular the
unsupported-type rejection) can only arise on the cache-miss path, with
the coordinator invoked and the source file present. -/
theorem c10_cache_hit_skips_class_check :
    (∀ (files : List String) (fullPath : String)
        (coord : String → String → Except CoordError Unit),
      files.contains fullPath = true →
      files.contains (getThumbnailPath fullPath) = true →
      handleThumbnail files fullPath coord
        = (ThumbResponse.serveFile (getThumbnailPath fullPath), false))
    ∧ ∀ (files : List String) (fullPath : String)
        (coord : String → String → Except CoordError Unit) (e : CoordError) (b : Bool),
        handleThumbnail files fullPath coord = (ThumbResponse.genFailed e, b) →
        b = true ∧ files.contains (getThumbnailPath fullPath) = false ∧
          files.contains fullPath = true := by
  constructor
  · intro files fullPath coord h1 h2
    exact handleThumbnail_hit files fullPath coord h1 h2
  · intro files fullPath coord e b h
    unfold handleThumbnail at h
    by_cases h1 : files.contains fullPath = false
    · rw [if_pos h1] at h
      simp at h
    · rw [if_neg h1] at h
      have h1' : files.contains fullPath = true := by
        rcases Bool.eq_false_or_eq_true (files.contains fullPath) with hb | hb
        · exact hb
        · exact absurd hb h1
      by_cases h2 : files.contains (getThumbnailPath fullPath) = false
      · rw [if_pos h2] at h
        cases hco : coord fullPath (getThumbnailPath fullPath) with
        | error e' =>
          rw [hco] at h
          simp at h
          exact ⟨h.2, h2, h1'⟩
        | ok u =>
          cases u
          rw [hco] at h
          simp at h
      · rw [if_neg h2] at h
        simp at h

def wNotes : String := "/g/notes.txt"

theorem c10_witness :
    handleThumbnail [wNotes, getThumbnailPath wNotes] wNotes wCoord
      = (ThumbResponse.serveFile (getThumbnailPath wNotes), false) :=
  c10_cache_hit_skips_class_check.1 [wNotes, getThumbnailPath wNotes] wNotes wCoord
    (by decide) (by decide)

/-! ## Claim C9 -/

/-- The two extension tables are disjoint, so the movie-first test
order cannot reclassify an image extension. -/
theorem ext_tables_disjoint (s : String) (h : imageExtensions s = true) :
    movieExtensions s = false := by
  simp [imageExtensions] at h
  rcases h with rfl | rfl | rfl | rfl | rfl | rfl | rfl | rfl | rfl | rfl | rfl | rfl | rfl
    <;> decide

/-- **C9.**  Media-class classification is case-insensitive because the
extension is lowercased before the table lookups: a path routes to the
image (resp. movie) class exactly when the lowercase form of its
extension is in the image (resp. movie) table, it is unsupported
exactly when the lowercase form is in neither, two paths whose
lowercased extensions agree are routed identically (e.g. `.JPG` vs
`.jpg`, `.MOV` vs `.mov`), and the generation routine — which
recomputes `strings.ToLower(filepath.Ext(...))` itself at main.go line
493 — rejects a path as unsupported exactly when the routing does. -/
theorem c9_case_insensitive_classification :
    ∀ p : String,
    (routeClass p = some MediaClass.image ↔
        imageExtensions (asciiLower (filepathExt p)) = true) ∧
    (routeClass p = some MediaClass.movie ↔
        movieExtensions (asciiLower (filepathExt p)) = true) ∧
    (routeClass p = none ↔
        (imageExtensions (asciiLower (filepathExt p)) = false ∧
         movieExtensions (asciiLower (filepathExt p)) = false)) ∧
    (∀ q : String, asciiLower (filepathExt p) = asciiLower (filepathExt q) →
        routeClass p = routeClass q) ∧
    (∀ (o : GenOracle) (cache : List String),
        cache.contains (getThumbnailPath p) = false → o.mkdirOk = true →
        ((generateThumbnail o p cache).1 = Except.error GenError.unsupportedType ↔
          routeClass p = none)) := by
  intro p
  refine ⟨?_, ?_, ?_, ?_, ?_⟩
  · constructor
    · intro h
      unfold routeClass at h
      by_cases hm : movieExtensions (asciiLower (filepathExt p)) = true
      · simp [hm] at h
      · by_cases hi : imageExtensions (asciiLower (filepathExt p)) = true
        · exact hi
        · simp [hm, hi] at h
    · intro h
      unfold routeClass
      simp [ext_tables_disjoint _ h, h]
  · constructor
    · intro h
      unfold routeClass at h
      by_cases hm : movieExtensions (asciiLower (filepathExt p)) = true
      · exact hm
      · by_cases hi : imageExtensions (asciiLower (filepathExt p)) = true
        · simp [hm, hi] at h
        · simp [hm, hi] at h
    · intro h
      unfold routeClass
      simp [h]
  · constructor
    · intro h
      unfold routeClass at h
      by_cases hm : movieExtensions (asciiLower (filepathExt p)) = true
      · simp [hm] at h
      · by_cases hi : imageExtensions (asciiLower (filepathExt p)) = true
        · simp [hm, hi] at h
        · refine ⟨?_, ?_⟩
          · rcases Bool.eq_false_or_eq_true (imageExtensions (asciiLower (filepathExt p)))
              with hb | hb
            · exact absurd hb hi
            · exact hb
          · rcases Bool.eq_false_or_eq_true (movieExtensions (asciiLower (filepathExt p)))
              with hb | hb
            · exact absurd hb hm
            · exact hb
    · intro h
      unfold routeClass
      simp [h.1, h.2]
  · intro q hq
    unfold routeClass
    rw [hq]
  · intro o cache hmiss hmk
    unfold generateThumbnail routeClass
    simp only [hmiss, hmk, Bool.false_eq_true, if_false, Bool.true_eq_false]
    by_cases hm : movieExtensions (asciiLower (filepathExt p)) = true
    · simp only [hm, if_true]
      cases o.tool <;> simp
    · by_cases hi : imageExtensions (asciiLower (filepathExt p)) = true
      · simp only [hm, hi, Bool.false_eq_true, if_false, if_true]
        by_cases ho : o.openOk = false
        · simp [ho]
        · simp only [ho, Bool.false_eq_true, if_false]
          cases o.tool <;> simp
      · simp [hm, hi]

theorem c9_witness :
    routeClass "/a/photo.JPG" = some MediaClass.image ∧
    routeClass "/a/photo.JPG" = routeClass "/a/photo.jpg" ∧
    routeClass "/v/clip.MOV" = routeClass "/v/clip.mov" ∧
    ¬ (generateThumbnail wO "/a/photo.JPG" []).1 = Except.error GenError.unsupportedType := by
  refine ⟨?_, ?_, ?_, ?_⟩
  · exact (c9_case_insensitive_classification "/a/photo.JPG").1.mpr (by decide)
  · exact (c9_case_insensitive_classification "/a/photo.JPG").2.2.2.1 "/a/photo.jpg"
      (by decide)
  · exact (c9_case_insensitive_classification "/v/clip.MOV").2.2.2.1 "/v/clip.mov"
      (by decide)
  · intro h
    have h2 := ((c9_case_insensitive_classification "/a/photo.JPG").2.2.2.2 wO []
      (by decide) rfl).mp h
    exact absurd h2 (by decide)

/-! ## Claim C7: the artifact key resolver

Supporting lemmas about the embedded `path/filepath` functions. -/

theorem splitSep_ne_nil (l : List Char) : splitSep l ≠ [] := by
  cases l with
  | nil => simp [splitSep]
  | cons c cs =>
    unfold splitSep
    by_cases h : isSep c
    · simp [h]
    · simp only [h, if_false]
      cases hs : splitSep cs <;> simp

theorem splitSep_cons (c : Char) (cs : List Char) :
    splitSep (c :: cs) = if isSep c then [] :: splitSep cs
      else match splitSep cs with
        | [] => [[c]]
        | h :: t => (c :: h) :: t := rfl

theorem splitSep_append_sep (a b : List Char) :
    splitSep (a ++ '/' :: b) = splitSep a ++ splitSep b := by
  induction a with
  | nil => simp [splitSep, isSep]
  | cons c cs ih =>
    rw [List.cons_append, splitSep_cons, splitSep_cons, ih]
    by_cases h : isSep c
    · simp [h]
    · simp only [h, if_false]
      cases hs : splitSep cs with
      | nil => exact absurd hs (splitSep_ne_nil cs)
      | cons p ps => simp

theorem splitSep_no_sep (c : List Char) (h : '/' ∉ c) : splitSep c = [c] := by
  induction c with
  | nil => rfl
  | cons x xs ih =>
    have hx : ¬ isSep x = true := by
      simp only [isSep, decide_eq_true_eq]
      intro hh
      exact h (by rw [hh]; exact List.mem_cons_self _ _)
    have hxs : '/' ∉ xs := fun hm => h (List.mem_cons_of_mem _ hm)
    rw [splitSep_cons, ih hxs]
    simp [hx]

theorem cleanParts_cons (r : Bool) (out : List (List Char)) (p : List Char)
    (ps : List (List Char)) :
    cleanParts r out (p :: ps) =
      if p = [] ∨ p = ['.'] then cleanParts r out ps
      else if p = ['.', '.'] then
        match out with
        | [] => if r then cleanParts r [] ps else cleanParts r [['.', '.']] ps
        | q :: out' =>
          if q = ['.', '.'] then cleanParts r (p :: q :: out') ps
          else cleanParts r out' ps
      else cleanParts r (p :: out) ps := rfl

theorem cleanParts_append_nil (r : Bool) (ps : List (List Char)) :
    ∀ out : List (List Char), cleanParts r out (ps ++ [[]]) = cleanParts r out ps := by
  induction ps with
  | nil =>
    intro out
    rfl
  | cons p ps ih =>
    intro out
    rw [List.cons_append, cleanParts_cons, cleanParts_cons]
    by_cases h1 : p = [] ∨ p = ['.']
    · rw [if_pos h1, if_pos h1, ih]
    · rw [if_neg h1, if_neg h1]
      by_cases h2 : p = ['.', '.']
      · rw [if_pos h2, if_pos h2]
        cases out with
        | nil =>
          rcases Bool.eq_false_or_eq_true r with hr | hr
          · subst hr
            exact ih _
          · subst hr
            exact ih _
        | cons q out' =>
          show (if q = ['.', '.'] then cleanParts r (p :: q :: out') (ps ++ [[]])
                else cleanParts r out' (ps ++ [[]]))
            = (if q = ['.', '.'] then cleanParts r (p :: q :: out') ps
                else cleanParts r out' ps)
          by_cases hq : q = ['.', '.']
          · rw [if_pos hq, if_pos hq, ih]
          · rw [if_neg hq, if_neg hq, ih]
      · rw [if_neg h2, if_neg h2, ih]

theorem cleanParts_append_comp (r : Bool) (cmp : List Char) (hc : validComp cmp)
    (ps : List (List Char)) :
    ∀ out : List (List Char),
      cleanParts r out (ps ++ [cmp]) = cleanParts r out ps ++ [cmp] := by
  obtain ⟨h1, h2, h3, _⟩ := hc
  induction ps with
  | nil =>
    intro out
    rw [List.nil_append, cleanParts_cons, if_neg (by simp [h1, h2]), if_neg h3]
    show (cmp :: out).reverse = cleanParts r out [] ++ [cmp]
    show (cmp :: out).reverse = out.reverse ++ [cmp]
    simp
  | cons p ps ih =>
    intro out
    rw [List.cons_append, cleanParts_cons, cleanParts_cons]
    by_cases hp1 : p = [] ∨ p = ['.']
    · rw [if_pos hp1, if_pos hp1, ih]
    · rw [if_neg hp1, if_neg hp1]
      by_cases hp2 : p = ['.', '.']
      · rw [if_pos hp2, if_pos hp2]
        cases out with
        | nil =>
          rcases Bool.eq_false_or_eq_true r with hr | hr
          · subst hr
            exact ih _
          · subst hr
            exact ih _
        | cons q out' =>
          show (if q = ['.', '.'] then cleanParts r (p :: q :: out') (ps ++ [cmp])
                else cleanParts r out' (ps ++ [cmp]))
            = (if q = ['.', '.'] then cleanParts r (p :: q :: out') ps
                else cleanParts r out' ps) ++ [cmp]
          by_cases hq : q = ['.', '.']
          · rw [if_pos hq, if_pos hq, ih]
          · rw [if_neg hq, if_neg hq, ih]
      · rw [if_neg hp2, if_neg hp2, ih]

theorem joinSep_append_single (ps : List (List Char)) (hps : ps ≠ []) (c : List Char) :
    joinSep (ps ++ [c]) = joinSep ps ++ '/' :: c := by
  induction ps with
  | nil => exact absurd rfl hps
  | cons p ps ih =>
    cases ps with
    | nil => rfl
    | cons p2 ps2 =>
      have H := ih (by simp)
      have e1 : joinSep (p :: p2 :: (ps2 ++ [c])) = p ++ '/' :: joinSep (p2 :: (ps2 ++ [c])) :=
        rfl
      have e2 : joinSep (p :: p2 :: ps2) = p ++ '/' :: joinSep (p2 :: ps2) := rfl
      show joinSep (p :: p2 :: (ps2 ++ [c])) = joinSep (p :: p2 :: ps2) ++ '/' :: c
      rw [e1, e2, ← List.cons_append, H]
      simp

/-- The root flag computed at the top of `cleanL`. -/
def rootedOf (l : List Char) : Bool :=
  match l with
  | c :: _ => c = '/'
  | [] => false

/-- Reassembly of cleaned components, as in the body of `cleanL`. -/
def assemble (r : Bool) (parts : List (List Char)) : List Char :=
  if r then
    match parts with
    | [] => ['/']
    | _ => '/' :: joinSep parts
  else
    match parts with
    | [] => ['.']
    | _ => joinSep parts

theorem cleanL_decomp (l : List Char) :
    cleanL l = assemble (rootedOf l) (cleanParts (rootedOf l) [] (splitSep l)) := rfl

theorem rootedOf_append (d t : List Char) (hd : d ≠ []) :
    rootedOf (d ++ t) = rootedOf d := by
  cases d with
  | nil => exact absurd rfl hd
  | cons c cs => rfl

theorem dropWhile_append_of_all {α : Type} (p : α → Bool) (a b : List α)
    (h : ∀ x ∈ a, p x = true) : (a ++ b).dropWhile p = b.dropWhile p := by
  induction a with
  | nil => rfl
  | cons x xs ih =>
    rw [List.cons_append, List.dropWhile_cons, if_pos (h x (List.mem_cons_self _ _))]
    exact ih (fun y hy => h y (List.mem_cons_of_mem _ hy))

theorem takeWhile_append_of_all {α : Type} (p : α → Bool) (a b : List α)
    (h : ∀ x ∈ a, p x = true) : (a ++ b).takeWhile p = a ++ b.takeWhile p := by
  induction a with
  | nil => rfl
  | cons x xs ih =>
    rw [List.cons_append, List.takeWhile_cons, if_pos (h x (List.mem_cons_self _ _)),
      ih (fun y hy => h y (List.mem_cons_of_mem _ hy)), List.cons_append]

theorem cleanL_append_slash (d : List Char) (hd : d ≠ []) :
    cleanL (d ++ ['/']) = cleanL d := by
  rw [cleanL_decomp, cleanL_decomp, rootedOf_append d ['/'] hd,
    splitSep_append_sep d []]
  show assemble (rootedOf d)
      (cleanParts (rootedOf d) [] (splitSep d ++ [[]])) = _
  rw [cleanParts_append_nil]

/-- Appending a separator and one honest component to a clean,
non-degenerate path appends it literally. -/
theorem cleanL_append_comp (d cmp : List Char) (hclean : cleanL d = d) (hne : d ≠ [])
    (hslash : d ≠ ['/']) (hdot : d ≠ ['.']) (hc : validComp cmp) :
    cleanL (d ++ '/' :: cmp) = d ++ '/' :: cmp := by
  rw [cleanL_decomp, rootedOf_append d ('/' :: cmp) hne, splitSep_append_sep,
    splitSep_no_sep cmp hc.2.2.2, cleanParts_append_comp _ cmp hc]
  have hd2 : assemble (rootedOf d) (cleanParts (rootedOf d) [] (splitSep d)) = d := by
    rw [← cleanL_decomp]
    exact hclean
  cases hp : cleanParts (rootedOf d) [] (splitSep d) with
  | nil =>
    exfalso
    rw [hp] at hd2
    rcases Bool.eq_false_or_eq_true (rootedOf d) with hb | hb
    · rw [hb] at hd2
      exact hslash hd2.symm
    · rw [hb] at hd2
      exact hdot hd2.symm
  | cons q qs =>
    rcases Bool.eq_false_or_eq_true (rootedOf d) with hb | hb
    · rw [hb] at hp hd2 ⊢
      rw [hp] at hd2
      have e1 : assemble true ((q :: qs) ++ [cmp]) = '/' :: joinSep ((q :: qs) ++ [cmp]) :=
        rfl
      have e2 : assemble true (q :: qs) = '/' :: joinSep (q :: qs) := rfl
      rw [e2] at hd2
      rw [e1, joinSep_append_single (q :: qs) (by simp) cmp, ← hd2]
      simp
    · rw [hb] at hp hd2 ⊢
      rw [hp] at hd2
      have e1 : assemble false ((q :: qs) ++ [cmp]) = joinSep ((q :: qs) ++ [cmp]) := rfl
      have e2 : assemble false (q :: qs) = joinSep (q :: qs) := rfl
      rw [e2] at hd2
      rw [e1, joinSep_append_single (q :: qs) (by simp) cmp, ← hd2]

/-- `filepath.Dir` of `<dir>/<file>` (no separator in the file part) is
the cleaned `<dir>`. -/
theorem dirL_append (d f : List Char) (hf : '/' ∉ f) (hd : d ≠ [])
    (hclean : cleanL d = d) : dirL (d ++ '/' :: f) = d := by
  unfold dirL
  have h1 : (d ++ '/' :: f).reverse = f.reverse ++ '/' :: d.reverse := by simp
  rw [h1, dropWhile_append_of_all _ f.reverse ('/' :: d.reverse) ?hall]
  case hall =>
    intro x hx
    have hxf : x ∈ f := List.mem_reverse.mp hx
    have : ¬ x = '/' := fun hh => hf (hh ▸ hxf)
    simp [isSep, this]
  rw [List.dropWhile_cons]
  rw [if_neg (by simp [isSep])]
  have h3 : ('/' :: d.reverse).reverse = d ++ ['/'] := by simp
  rw [h3, cleanL_append_slash d hd, hclean]

/-- `filepath.Base` of `<dir>/<file>` (nonempty file part without
separators) is the file part. -/
theorem baseL_append (d f : List Char) (hf : '/' ∉ f) (hfne : f ≠ []) :
    baseL (d ++ '/' :: f) = f := by
  unfold baseL
  rw [if_neg (by simp)]
  have h1 : (d ++ '/' :: f).reverse = f.reverse ++ '/' :: d.reverse := by simp
  rw [h1]
  cases hfr : f.reverse with
  | nil => exact absurd (by simpa using congrArg List.reverse hfr) hfne
  | cons y ys =>
    have hyf : y ∈ f := List.mem_reverse.mp (hfr ▸ List.mem_cons_self y ys)
    have hy : isSep y = false := by
      simp only [isSep, decide_eq_false_iff_not]
      intro hh
      exact hf (hh ▸ hyf)
    rw [List.cons_append, List.dropWhile_cons, hy]
    rw [if_neg (show ¬ (false = true) by decide)]
    rw [if_neg (show ¬ (y :: (ys ++ '/' :: d.reverse)) = [] by simp)]
    have hall : ∀ x ∈ y :: ys, (fun c => ¬ isSep c : Char → Bool) x = true := by
      intro x hx
      have hxf : x ∈ f := List.mem_reverse.mp (hfr ▸ hx)
      have hne2 : ¬ x = '/' := fun hh => hf (hh ▸ hxf)
      simp [isSep, hne2]
    have h2 : (y :: (ys ++ '/' :: d.reverse)).takeWhile (fun c => ¬ isSep c)
        = (y :: ys) ++ ('/' :: d.reverse).takeWhile (fun c => ¬ isSep c) := by
      rw [← List.cons_append]
      exact takeWhile_append_of_all _ (y :: ys) ('/' :: d.reverse) hall
    rw [h2]
    have h4 : ('/' :: d.reverse).takeWhile (fun c => ¬ isSep c) = [] := by
      rw [List.takeWhile_cons]
      simp [isSep]
    rw [h4, List.append_nil, ← hfr, List.reverse_reverse]

theorem string_ext {a b : String} (h : a.data = b.data) : a = b := by
  cases a
  cases b
  exact congrArg String.mk h

theorem data_append (a b : String) : (a ++ b).data = a.data ++ b.data := rfl

theorem data_ne_nil {s : String} (h : s ≠ "") : s.data ≠ [] := by
  intro hh
  apply h
  cases s
  exact congrArg String.mk hh

theorem fname_data (name ext : String) :
    (name ++ "." ++ ext).data = name.data ++ '.' :: ext.data := by
  rw [data_append, data_append]
  show (name.data ++ ['.']) ++ ext.data = name.data ++ '.' :: ext.data
  simp

/-- A `<name>.<ext>` file name (nonempty name other than `.`, no
separators) is an honest path component. -/
theorem fname_valid (name ext : String) (hn0 : name ≠ "") (hn1 : name ≠ ".")
    (hn : '/' ∉ name.data) (he : '/' ∉ ext.data) :
    validComp (name ++ "." ++ ext).data := by
  rw [fname_data]
  refine ⟨by simp, ?_, ?_, ?_⟩
  · intro hh
    have hlen := congrArg List.length hh
    simp only [List.length_append, List.length_cons, List.length_nil] at hlen
    have h0' : name.data.length = 0 := by omega
    exact data_ne_nil hn0 (List.length_eq_zero.mp h0')
  · intro hh
    have hlen := congrArg List.length hh
    simp only [List.length_append, List.length_cons, List.length_nil] at hlen
    have hn' : name.data.length ≠ 0 :=
      fun hz => data_ne_nil hn0 (List.length_eq_zero.mp hz)
    have hel : ext.data.length = 0 := by omega
    have hed : ext.data = [] := List.length_eq_zero.mp hel
    rw [hed] at hh
    have hh2 : name.data ++ ['.'] = ['.'] ++ ['.'] := by simpa using hh
    have hnd : name.data = ['.'] := List.append_cancel_right hh2
    exact hn1 (string_ext (by rw [hnd]))
  · intro hm
    rcases List.mem_append.mp hm with h | h
    · exact hn h
    · rcases List.mem_cons.mp h with h | h
      · exact absurd h (by decide)
      · exact he h

theorem getThumbnailPath_formula (dir f : String)
    (hclean : filepathClean dir = dir) (h0 : dir ≠ "") (h1 : dir ≠ "/") (h2 : dir ≠ ".")
    (hv : validComp f.data) :
    getThumbnailPath (dir ++ "/" ++ f) = dir ++ "/.small/" ++ f ++ ".jpg" := by
  have hdd : dir.data ≠ [] := data_ne_nil h0
  have hdslash : dir.data ≠ ['/'] := fun hh => h1 (string_ext (by rw [hh]))
  have hddot : dir.data ≠ ['.'] := fun hh => h2 (string_ext (by rw [hh]))
  have hdclean : cleanL dir.data = dir.data := congrArg String.data hclean
  have hpd : (dir ++ "/" ++ f).data = dir.data ++ '/' :: f.data := by
    rw [data_append, data_append]
    show (dir.data ++ ['/']) ++ f.data = dir.data ++ '/' :: f.data
    simp
  have e1 : cleanL (dir.data ++ '/' :: ".small".data)
      = dir.data ++ '/' :: ".small".data :=
    cleanL_append_comp dir.data ".small".data hdclean hdd hdslash hddot
      ⟨by decide, by decide, by decide, by decide⟩
  have hsm : (".small".data).length = 6 := rfl
  have hjp : (".jpg".data).length = 4 := rfl
  have hXne : dir.data ++ '/' :: ".small".data ≠ [] := by simp
  have hXslash : dir.data ++ '/' :: ".small".data ≠ ['/'] := by
    intro hh
    have hlen := congrArg List.length hh
    simp only [List.length_append, List.length_cons, List.length_nil, hsm] at hlen
    omega
  have hXdot : dir.data ++ '/' :: ".small".data ≠ ['.'] := by
    intro hh
    have hlen := congrArg List.length hh
    simp only [List.length_append, List.length_cons, List.length_nil, hsm] at hlen
    omega
  have hv2 : validComp (f.data ++ ".jpg".data) := by
    refine ⟨by simp, ?_, ?_, ?_⟩
    · intro hh
      have hlen := congrArg List.length hh
      simp only [List.length_append, List.length_cons, List.length_nil, hjp] at hlen
      omega
    · intro hh
      have hlen := congrArg List.length hh
      simp only [List.length_append, List.length_cons, List.length_nil, hjp] at hlen
      omega
    · intro hm
      rcases List.mem_append.mp hm with h | h
      · exact hv.2.2.2 h
      · exact absurd h (by decide)
  have e2 : cleanL ((dir.data ++ '/' :: ".small".data) ++ '/' :: (f.data ++ ".jpg".data))
      = (dir.data ++ '/' :: ".small".data) ++ '/' :: (f.data ++ ".jpg".data) :=
    cleanL_append_comp _ _ e1 hXne hXslash hXdot hv2
  apply string_ext
  have eL : (getThumbnailPath (dir ++ "/" ++ f)).data
      = joinL (joinL (dirL (dir ++ "/" ++ f).data) ".small".data)
          (baseL (dir ++ "/" ++ f).data ++ ".jpg".data) := rfl
  rw [eL, hpd, dirL_append dir.data f.data hv.2.2.2 hdd hdclean,
    baseL_append dir.data f.data hv.2.2.2 hv.1]
  have j1 : joinL dir.data ".small".data = dir.data ++ '/' :: ".small".data := by
    unfold joinL
    rw [if_neg hdd]
    exact e1
  have j2 : joinL (dir.data ++ '/' :: ".small".data) (f.data ++ ".jpg".data)
      = (dir.data ++ '/' :: ".small".data) ++ '/' :: (f.data ++ ".jpg".data) := by
    unfold joinL
    rw [if_neg hXne]
    exact e2
  rw [j1, j2, data_append, data_append, data_append]
  have hm : ("/.small/" : String).data = '/' :: ".small".data ++ ['/'] := rfl
  rw [hm]
  simp

/-! ## Claim C7 -/

/-- **C7.**  The artifact key resolver `getThumbnailPath` is a pure
total function of the source path (its Lean type `String → String` has
no effects and no error case, mirroring the Go function, which only
performs string manipulation).  For a source file `<dir>/<name>.<ext>`
— with `<dir>` a clean, non-degenerate directory path and
`<name>.<ext>` an honest file name (nonempty name, no separators) — it
returns exactly `<dir>/.small/<name>.<ext>.jpg`; and two source paths
in the same directory with the same name but different extensions
resolve to distinct artifact paths, because the original extension is
kept in the artifact's name. -/
theorem c7_resolver_formula_and_no_collision :
    ∀ dir name ext : String,
    filepathClean dir = dir → dir ≠ "" → dir ≠ "/" → dir ≠ "." →
    name ≠ "" → name ≠ "." → '/' ∉ name.data → '/' ∉ ext.data →
    getThumbnailPath (dir ++ "/" ++ (name ++ "." ++ ext))
      = dir ++ "/.small/" ++ (name ++ "." ++ ext) ++ ".jpg"
    ∧ ∀ ext' : String, '/' ∉ ext'.data → ext ≠ ext' →
        getThumbnailPath (dir ++ "/" ++ (name ++ "." ++ ext))
          ≠ getThumbnailPath (dir ++ "/" ++ (name ++ "." ++ ext')) := by
  intro dir name ext hclean h0 h1 h2 hn0 hn1 hn he
  have hv := fname_valid name ext hn0 hn1 hn he
  have F1 := getThumbnailPath_formula dir (name ++ "." ++ ext) hclean h0 h1 h2 hv
  refine ⟨F1, ?_⟩
  intro ext' he' hne heq
  have hv' := fname_valid name ext' hn0 hn1 hn he'
  have F2 := getThumbnailPath_formula dir (name ++ "." ++ ext') hclean h0 h1 h2 hv'
  rw [F1, F2] at heq
  have hdq := congrArg String.data heq
  simp only [data_append, List.append_assoc] at hdq
  have c1 := List.append_cancel_left hdq
  have c2 := List.append_cancel_left c1
  have c3 := List.append_cancel_left c2
  have c4 := List.append_cancel_left c3
  have c5 := List.append_cancel_right c4
  exact hne (string_ext c5)

theorem c7_witness :
    getThumbnailPath "/photos/beach.jpg" = "/photos/.small/beach.jpg.jpg" ∧
    getThumbnailPath "/photos/beach.jpg" ≠ getThumbnailPath "/photos/beach.png" := by
  have h := c7_resolver_formula_and_no_collision "/photos" "beach" "jpg" (by decide)
    (by decide) (by decide) (by decide) (by decide) (by decide) (by decide) (by decide)
  have e1 : ("/photos" ++ "/" ++ ("beach" ++ "." ++ "jpg") : String)
      = "/photos/beach.jpg" := by decide
  have e2 : ("/photos" ++ "/.small/" ++ ("beach" ++ "." ++ "jpg") ++ ".jpg" : String)
      = "/photos/.small/beach.jpg.jpg" := by decide
  have e3 : ("/photos" ++ "/" ++ ("beach" ++ "." ++ "png") : String)
      = "/photos/beach.png" := by decide
  obtain ⟨hf, hd⟩ := h
  rw [e1, e2] at hf
  have hd2 := hd "png" (by decide) (by decide)
  rw [e1, e3] at hd2
  exact ⟨hf, hd2⟩
